import Mathlib

/-!
BuildDict: CSV rows to Apple Dictionary entries.

A shallow embedding of `main.go`: the identifier sanitizer `sanitizeID` and the
entry-building loop of `main`, together with the standard-library string
functions they call (`html.EscapeString`, `strings.ToLower`,
`strings.ReplaceAll`, `strings.TrimSpace`, `fmt.Sprintf`).

Modelling conventions.
* A Go string is a list of Unicode characters (well-formed UTF-8 text).
* `strings.ToLower` maps every rune through `unicode.ToLower`. On ASCII the
  mapping is fixed (`A`-`Z` to `a`-`z`); on the other runes it is the Unicode
  case table, which is taken as a parameter `tbl : Char → Char`.
* The map `usedIDs` is a total function with default `0`, which is how Go
  reads a missing key of a `map[string]int`.
* Counters are natural numbers: a counter never exceeds the number of rows,
  far below the range of a 64-bit `int`.
* An index expression `record[i]` or a slice expression `records[1:]` that
  would be out of range makes the computation return `none`.
-/

set_option autoImplicit false

namespace BuildDict

/-- A Go string. -/
abbrev Str := List Char

/-! ## Standard-library functions -/

/-- The replacement `html.EscapeString` makes for one character. -/
def escapeRune (c : Char) : Str :=
  if c = '&' then "&amp;".toList
  else if c = Char.ofNat 39 then "&#39;".toList
  else if c = '<' then "&lt;".toList
  else if c = '>' then "&gt;".toList
  else if c = Char.ofNat 34 then "&#34;".toList
  else [c]

/-- The function `html.EscapeString`: escapes `&`, the apostrophe, `<`, `>` and the
double quote. -/
def escapeString (s : Str) : Str :=
  s.flatMap escapeRune

/-- The function `unicode.ToLower` on one rune; `tbl` is the Unicode case table
used for the runes outside ASCII. -/
def toLowerRune (tbl : Char → Char) (c : Char) : Char :=
  if c.toNat < 128 then
    if 65 ≤ c.toNat ∧ c.toNat ≤ 90 then Char.ofNat (c.toNat + 32) else c
  else tbl c

/-- The function `strings.ToLower`. -/
def toLower (tbl : Char → Char) (s : Str) : Str :=
  s.map (toLowerRune tbl)

/-- The call `strings.ReplaceAll(s, old, new)` for a pattern `old` of exactly one
character, which is what every call site in `sanitizeID` passes. -/
def replaceAll (s : Str) (old : Char) (new : Str) : Str :=
  s.flatMap (fun c => if c = old then new else [c])

/-- The predicate `unicode.IsSpace`: the characters `strings.TrimSpace` removes. -/
def isSpace (c : Char) : Bool :=
  c.toNat ∈ [0x09, 0x0A, 0x0B, 0x0C, 0x0D, 0x20, 0x85, 0xA0, 0x1680, 0x2028, 0x2029,
    0x202F, 0x205F, 0x3000] || (0x2000 ≤ c.toNat && c.toNat ≤ 0x200A)

/-- The function `strings.TrimSpace`: drops leading and trailing white space. -/
def trimSpace (s : Str) : Str :=
  ((s.dropWhile isSpace).reverse.dropWhile isSpace).reverse

/-- The call `fmt.Sprintf("%s_%d", baseID, count)` for a count that is not
negative. -/
def sprintfID (baseID : Str) (count : Nat) : Str :=
  baseID ++ '_' :: Nat.toDigits 10 count

/-! ## `sanitizeID` -/

/-- The `strings.ReplaceAll` calls of `sanitizeID`, in source order: the
character replaced and its token. -/
def replacements : List (Char × Str) :=
  [ (' ', "_".toList),
    ('&', "_and_".toList),
    ('/', "_slash_".toList),
    (Char.ofNat 92, "_backslash_".toList),
    (':', "_colon_".toList),
    (';', "_semicolon_".toList),
    ('?', "_question_".toList),
    ('!', "_exclamation_".toList),
    ('@', "_at_".toList),
    ('#', "_hash_".toList),
    ('$', "_dollar_".toList),
    ('%', "_percent_".toList),
    ('^', "_caret_".toList),
    ('*', "_star_".toList),
    ('(', "_lparen_".toList),
    (')', "_rparen_".toList),
    ('+', "_plus_".toList),
    ('=', "_equals_".toList),
    ('[', "_lbracket_".toList),
    (']', "_rbracket_".toList),
    (Char.ofNat 123, "_lbrace_".toList),
    (Char.ofNat 125, "_rbrace_".toList),
    ('|', "_pipe_".toList),
    ('<', "_lt_".toList),
    ('>', "_gt_".toList),
    (',', "_comma_".toList),
    ('.', "_dot_".toList),
    (Char.ofNat 39, "_apos_".toList),
    (Char.ofNat 34, "_quote_".toList) ]

/-- Runs a sequence of `strings.ReplaceAll` calls, one after the other. -/
def applyReplacements (tab : List (Char × Str)) (s : Str) : Str :=
  tab.foldl (fun acc p => replaceAll acc p.1 p.2) s

/-- The function `sanitizeID`: HTML-escape, lowercase, then the replacements in
sequence. -/
def sanitizeID (tbl : Char → Char) (s : Str) : Str :=
  applyReplacements replacements (toLower tbl (escapeString s))

/-! ## The entry-building loop of `main` -/

/-- The type `Index`. -/
structure Index where
  Value : Str
  deriving DecidableEq

/-- The type `DictionaryEntry` (without the XML name). -/
structure DictionaryEntry where
  ID : Str
  Title : Str
  Index : List Index
  Content : Str
  deriving DecidableEq

/-- The variables the loop updates: `entries` and `usedIDs`. -/
structure LoopState where
  entries : List DictionaryEntry
  usedIDs : Str → Nat

/-- The state before the loop: no entries, an empty map. -/
def LoopState.init : LoopState :=
  ⟨[], fun _ => 0⟩

/-- The statement `usedIDs[baseID]++`. -/
def incr (usedIDs : Str → Nat) (baseID : Str) : Str → Nat :=
  fun k => if k = baseID then usedIDs k + 1 else usedIDs k

/-- The part of the loop body after the fields have been read: builds the entry
for `term`, `description`, `tag` and appends it. -/
def emit (tbl : Char → Char) (st : LoopState) (term description tag : Str) : LoopState :=
  let baseID := sanitizeID tbl term
  let count := st.usedIDs baseID
  let usedIDs := incr st.usedIDs baseID
  let id := if count > 0 then sprintfID baseID count else baseID
  let index : Index := ⟨escapeString term⟩
  let escapedTerm := escapeString term
  let escapedDescription := escapeString description
  let content := "<h1>".toList ++ escapedTerm ++ "</h1>\n<div>\n".toList ++ escapedDescription
    ++ "\n</div>".toList
  let content := if tag ≠ [] then
      content ++ ("\n<span class=\"tag\">".toList ++ escapeString tag ++ "</span>".toList)
    else content
  let entry : DictionaryEntry := ⟨id, escapeString term, [index], content⟩
  ⟨st.entries ++ [entry], usedIDs⟩

/-- One iteration of the loop over `records`; `none` is an index out of
range. -/
def processRecord (tbl : Char → Char) (st : LoopState) (record : List Str) :
    Option LoopState :=
  if record.length < 2 then some st
  else do
    let term := trimSpace (← record[0]?)
    let description := trimSpace (← record[1]?)
    let tag ← if record.length > 2 then (record[2]?).map trimSpace else some []
    some (emit tbl st term description tag)

/-- The loop `for _, record := range records`. -/
def mainLoop (tbl : Char → Char) (st : LoopState) (records : List (List Str)) :
    Option LoopState :=
  records.foldlM (processRecord tbl) st

/-- The entries the loop produces from the data rows. -/
def buildEntries (tbl : Char → Char) (records : List (List Str)) :
    Option (List DictionaryEntry) :=
  (mainLoop tbl LoopState.init records).map LoopState.entries

/-- The statement `records = records[1:]`: the slice expression is out of range
(`none`) when `records` is empty. -/
def dropHeader (records : List (List Str)) : Option (List (List Str)) :=
  if records.length < 1 then none else some (records.drop 1)

/-- The part of `main` from the loaded CSV records to the entries of the
document: drop the header row, then run the loop. -/
def mainEntries (tbl : Char → Char) (records : List (List Str)) :
    Option (List DictionaryEntry) := do
  let records ← dropHeader records
  buildEntries tbl records

/-- A case table that leaves every rune outside ASCII unchanged. -/
def asciiTable : Char → Char := id

/-! ## Vocabulary of the statements -/

/-- The rows the loop does not skip: those with at least two fields. -/
def validRows (rows : List (List Str)) : List (List Str) :=
  rows.filter (fun r => decide (2 ≤ r.length))

/-- The base identifier of a row: `sanitizeID` of its trimmed first field. -/
def baseOf (tbl : Char → Char) (r : List Str) : Str :=
  sanitizeID tbl (trimSpace (r.headD []))

/-- The number of valid rows of `rows` whose base identifier is `base`. -/
def occurrences (tbl : Char → Char) (base : Str) (rows : List (List Str)) : Nat :=
  (validRows rows).countP (fun r => decide (baseOf tbl r = base))

/-- The tag the loop uses for a row whose fields after the second are `rest`. -/
def tagOf (rest : List Str) : Str :=
  match rest with
  | [] => []
  | g :: _ => trimSpace g

/-- The entry the loop body builds from the trimmed fields when the counter of
the base identifier reads `count`. -/
def entryOf (tbl : Char → Char) (count : Nat) (term description tag : Str) : DictionaryEntry :=
  (emit tbl ⟨[], fun _ => count⟩ term description tag).entries.getLastD ⟨[], [], [], []⟩

/-- The reserved punctuation characters of the identifier sanitizer:
`& / \ : ; ? ! @ # $ % ^ * ( ) + = [ ] { } | < > , .`, the apostrophe and the
double quote. -/
def reservedPunctuation : List Char :=
  ['&', '/', Char.ofNat 92, ':', ';', '?', '!', '@', '#', '$', '%', '^', '*', '(', ')', '+',
    '=', '[', ']', Char.ofNat 123, Char.ofNat 125, '|', '<', '>', ',', '.', Char.ofNat 39,
    Char.ofNat 34]

/-- The five entities `html.EscapeString` writes. -/
def entities : List Str :=
  ["&amp;".toList, "&#39;".toList, "&lt;".toList, "&gt;".toList, "&#34;".toList]

/-- The characters that structure markup, apart from `&`: `<`, `>`, the double
quote and the apostrophe. -/
def markupChars : List Char :=
  ['<', '>', Char.ofNat 34, Char.ofNat 39]

/-- The class of a row by its number of fields: fewer than two (`0`), exactly
two (`1`), three or more (`2`). -/
def fieldClass (r : List Str) : Nat :=
  if r.length < 2 then 0 else if r.length = 2 then 1 else 2

/-- Two rows are alike up to their third field: same class, and the same field
at each of the positions 0, 1, 2 that both rows have. -/
def agreeOnThree (r1 r2 : List Str) : Prop :=
  fieldClass r1 = fieldClass r2 ∧
    ∀ i, i < 3 → i < r1.length → i < r2.length → r1.getD i [] = r2.getD i []

/-- The rewriting table of the character-by-character reading of `sanitizeID`:
the space, the five characters HTML escaping rewrites (with the tokens their
entities become: in `&#34;` and `&#39;` the `&` gives `_and_` and the `#` gives
`_hash_`, hence two underscores in a row), and the other 23 reserved punctuation
characters with their own tokens. -/
def sanitizeTable : List (Char × Str) :=
  [ (' ', "_".toList),
    ('&', "_and_amp_semicolon_".toList),
    ('<', "_and_lt_semicolon_".toList),
    ('>', "_and_gt_semicolon_".toList),
    (Char.ofNat 34, "_and__hash_34_semicolon_".toList),
    (Char.ofNat 39, "_and__hash_39_semicolon_".toList),
    ('/', "_slash_".toList),
    (Char.ofNat 92, "_backslash_".toList),
    (':', "_colon_".toList),
    (';', "_semicolon_".toList),
    ('?', "_question_".toList),
    ('!', "_exclamation_".toList),
    ('@', "_at_".toList),
    ('#', "_hash_".toList),
    ('$', "_dollar_".toList),
    ('%', "_percent_".toList),
    ('^', "_caret_".toList),
    ('*', "_star_".toList),
    ('(', "_lparen_".toList),
    (')', "_rparen_".toList),
    ('+', "_plus_".toList),
    ('=', "_equals_".toList),
    ('[', "_lbracket_".toList),
    (']', "_rbracket_".toList),
    (Char.ofNat 123, "_lbrace_".toList),
    (Char.ofNat 125, "_rbrace_".toList),
    ('|', "_pipe_".toList),
    (',', "_comma_".toList),
    ('.', "_dot_".toList) ]

/-- The image of one character in the character-by-character reading of
`sanitizeID`: its token when the table has one, its lowercase otherwise. -/
def sanitizeRune (tbl : Char → Char) (c : Char) : Str :=
  match sanitizeTable.lookup c with
  | some token => token
  | none => [toLowerRune tbl c]

/-- The replacements of `sanitizeID` without those of `<`, `>`, the apostrophe
and the double quote. -/
def liveReplacements : List (Char × Str) :=
  replacements.filter (fun p => decide (p.1 ∉ markupChars))

/-- The function `sanitizeID` with the replacements of `<`, `>`, the apostrophe
and the double quote removed. -/
def sanitizeIDWithoutDead (tbl : Char → Char) (s : Str) : Str :=
  applyReplacements liveReplacements (toLower tbl (escapeString s))

/-- Some uppercase letters that have no lowercase form, from the tables of Go's
`unicode` package: the Greek upsilon with hook symbols U+03D2, U+03D3, U+03D4 and
the mathematical bold capital A U+1D400. For each of them `unicode.IsUpper`
holds and `unicode.ToLower` returns the rune itself. -/
def uppercaseWithoutLowercase : List Char :=
  [Char.ofNat 0x3D2, Char.ofNat 0x3D3, Char.ofNat 0x3D4, Char.ofNat 0x1D400]

/-- The number a string of decimal digits denotes (used in proofs). -/
def digitsValue (ds : Str) : Nat :=
  ds.foldl (fun acc c => 10 * acc + (c.toNat - 48)) 0

/-- One iteration of the loop, as a total function (used in proofs). -/
def stepPure (tbl : Char → Char) (st : LoopState) (record : List Str) : LoopState :=
  match record with
  | t :: d :: rest => emit tbl st (trimSpace t) (trimSpace d) (tagOf rest)
  | _ => st

/-! ## The loop: basic facts -/

theorem processRecord_eq_stepPure (tbl : Char → Char) (st : LoopState) (record : List Str) :
    processRecord tbl st record = some (stepPure tbl st record) := by
  match record with
  | [] => rfl
  | [_] => rfl
  | [_, _] => rfl
  | _ :: _ :: _ :: _ => simp [processRecord, stepPure, tagOf]

theorem mainLoop_eq_foldl (tbl : Char → Char) (st : LoopState) (records : List (List Str)) :
    mainLoop tbl st records = some (records.foldl (stepPure tbl) st) := by
  induction records generalizing st with
  | nil => rfl
  | cons r rs ih =>
    simp only [mainLoop, List.foldlM_cons, processRecord_eq_stepPure, List.foldl_cons]
    exact ih _

theorem buildEntries_eq (tbl : Char → Char) (records : List (List Str)) :
    buildEntries tbl records
      = some (records.foldl (stepPure tbl) LoopState.init).entries := by
  simp [buildEntries, mainLoop_eq_foldl]

theorem emit_eq (tbl : Char → Char) (st : LoopState) (term description tag : Str) :
    emit tbl st term description tag
      = ⟨st.entries ++ [entryOf tbl (st.usedIDs (sanitizeID tbl term)) term description tag],
          incr st.usedIDs (sanitizeID tbl term)⟩ := by
  simp [emit, entryOf]

theorem stepPure_valid (tbl : Char → Char) (st : LoopState) (t d : Str) (rest : List Str) :
    stepPure tbl st (t :: d :: rest)
      = ⟨st.entries ++ [entryOf tbl (st.usedIDs (sanitizeID tbl (trimSpace t)))
            (trimSpace t) (trimSpace d) (tagOf rest)],
          incr st.usedIDs (sanitizeID tbl (trimSpace t))⟩ := by
  simp [stepPure, emit_eq]

theorem stepPure_short (tbl : Char → Char) (st : LoopState) (r : List Str)
    (h : r.length < 2) : stepPure tbl st r = st := by
  match r, h with
  | [], _ => rfl
  | [_], _ => rfl
  | _ :: _ :: _, h => exact absurd h (by simp)

theorem stepPure_cases (tbl : Char → Char) (st : LoopState) (r : List Str) :
    (r.length < 2 ∧ stepPure tbl st r = st) ∨
    (∃ t d rest, r = t :: d :: rest) := by
  match r with
  | [] => exact Or.inl ⟨by simp, rfl⟩
  | [_] => exact Or.inl ⟨by simp, rfl⟩
  | t :: d :: rest => exact Or.inr ⟨t, d, rest, rfl⟩

/-- The loop only appends to `entries`. -/
theorem foldl_entries_extend (tbl : Char → Char) (rows : List (List Str)) (st : LoopState) :
    ∃ l, (rows.foldl (stepPure tbl) st).entries = st.entries ++ l := by
  induction rows generalizing st with
  | nil => exact ⟨[], by simp⟩
  | cons r rs ih =>
    rcases stepPure_cases tbl st r with ⟨_, h⟩ | ⟨t, d, rest, rfl⟩
    · simpa [h] using ih st
    · obtain ⟨l, hl⟩ := ih (stepPure tbl st (t :: d :: rest))
      refine ⟨entryOf tbl (st.usedIDs (sanitizeID tbl (trimSpace t)))
        (trimSpace t) (trimSpace d) (tagOf rest) :: l, ?_⟩
      rw [List.foldl_cons, hl, stepPure_valid]
      simp

/-- The loop appends one entry per valid row. -/
theorem foldl_entries_length (tbl : Char → Char) (rows : List (List Str)) (st : LoopState) :
    (rows.foldl (stepPure tbl) st).entries.length
      = st.entries.length + (validRows rows).length := by
  induction rows generalizing st with
  | nil => simp [validRows]
  | cons r rs ih =>
    rcases stepPure_cases tbl st r with ⟨hlen, h⟩ | ⟨t, d, rest, rfl⟩
    · have hv : validRows (r :: rs) = validRows rs := by
        simp [validRows, List.filter_cons, Nat.not_le.mpr hlen]
      simpa [h, hv] using ih st
    · have hv : validRows ((t :: d :: rest) :: rs) = (t :: d :: rest) :: validRows rs := by
        simp [validRows, List.filter_cons]
      rw [List.foldl_cons, ih, stepPure_valid, hv]
      simp
      omega

/-- The counter of a base identifier after the loop: its value before plus the
number of valid rows with that base. -/
theorem foldl_usedIDs (tbl : Char → Char) (rows : List (List Str)) (st : LoopState)
    (b : Str) :
    (rows.foldl (stepPure tbl) st).usedIDs b = st.usedIDs b + occurrences tbl b rows := by
  induction rows generalizing st with
  | nil => simp [occurrences, validRows]
  | cons r rs ih =>
    rcases stepPure_cases tbl st r with ⟨hlen, h⟩ | ⟨t, d, rest, rfl⟩
    · have hv : validRows (r :: rs) = validRows rs := by
        simp [validRows, List.filter_cons, Nat.not_le.mpr hlen]
      simpa [h, occurrences, hv] using ih st
    · have hv : validRows ((t :: d :: rest) :: rs) = (t :: d :: rest) :: validRows rs := by
        simp [validRows, List.filter_cons]
      have hocc : occurrences tbl b ((t :: d :: rest) :: rs)
          = occurrences tbl b rs + (if sanitizeID tbl (trimSpace t) = b then 1 else 0) := by
        simp only [occurrences, hv, List.countP_cons, baseOf, List.headD_cons,
          decide_eq_true_eq]
      rw [List.foldl_cons, ih, stepPure_valid, hocc]
      generalize sanitizeID tbl (trimSpace t) = x
      simp only [incr]
      by_cases hb : b = x
      · rw [if_pos hb, if_pos hb.symm]; omega
      · rw [if_neg hb, if_neg (fun h => hb h.symm)]; omega

/-- The entry of a valid row sits at the position given by the number of valid
rows before it and is built with the number of earlier valid rows of the same
base as its counter. -/
theorem buildEntries_at (tbl : Char → Char) (pre post : List (List Str)) (t d : Str)
    (rest : List Str) :
    ∃ es, buildEntries tbl (pre ++ (t :: d :: rest) :: post) = some es ∧
      es[(validRows pre).length]? = some (entryOf tbl
        (occurrences tbl (sanitizeID tbl (trimSpace t)) pre)
        (trimSpace t) (trimSpace d) (tagOf rest)) := by
  refine ⟨_, buildEntries_eq tbl _, ?_⟩
  rw [List.foldl_append, List.foldl_cons]
  obtain ⟨l, hl⟩ := foldl_entries_extend tbl post
    (stepPure tbl (pre.foldl (stepPure tbl) LoopState.init) (t :: d :: rest))
  have hlen := foldl_entries_length tbl pre LoopState.init
  have hused := foldl_usedIDs tbl pre LoopState.init (sanitizeID tbl (trimSpace t))
  rw [hl, stepPure_valid, hused]
  simp only [LoopState.init, List.length_nil, Nat.zero_add] at hlen ⊢
  rw [List.append_assoc, List.getElem?_append_right (by omega)]
  simp [hlen]

theorem foldl_stepPure_validRows (tbl : Char → Char) (rows : List (List Str))
    (st : LoopState) :
    (validRows rows).foldl (stepPure tbl) st = rows.foldl (stepPure tbl) st := by
  induction rows generalizing st with
  | nil => rfl
  | cons r rs ih =>
    rcases stepPure_cases tbl st r with ⟨hlen, h⟩ | ⟨t, d, rest, rfl⟩
    · have hv : validRows (r :: rs) = validRows rs := by
        simp [validRows, List.filter_cons, Nat.not_le.mpr hlen]
      rw [hv, List.foldl_cons, h, ih]
    · have hv : validRows ((t :: d :: rest) :: rs) = (t :: d :: rest) :: validRows rs := by
        simp [validRows, List.filter_cons]
      rw [hv, List.foldl_cons, List.foldl_cons]
      exact ih _

/-! ## Decimal rendering -/

theorem digitChar_value (k : Nat) (h : k < 10) : (Nat.digitChar k).toNat - 48 = k := by
  interval_cases k <;> rfl

theorem toDigitsCore_append (f n : Nat) (ds : List Char) :
    Nat.toDigitsCore 10 f n ds = Nat.toDigitsCore 10 f n [] ++ ds := by
  induction f generalizing n ds with
  | zero => simp [Nat.toDigitsCore]
  | succ f ih =>
    simp only [Nat.toDigitsCore]
    split
    · simp
    · rw [ih (n / 10) (Nat.digitChar (n % 10) :: ds), ih (n / 10) [Nat.digitChar (n % 10)]]
      simp

theorem digitsValue_toDigitsCore (f n : Nat) (h : n < f) :
    digitsValue (Nat.toDigitsCore 10 f n []) = n := by
  induction f generalizing n with
  | zero => omega
  | succ f ih =>
    simp only [Nat.toDigitsCore]
    split
    · rename_i h0
      have : n < 10 := by omega
      simp [digitsValue, digitChar_value (n % 10) (Nat.mod_lt _ (by decide))]
      omega
    · rename_i h0
      rw [toDigitsCore_append]
      have hlt : n / 10 < f := by omega
      have := ih (n / 10) hlt
      simp only [digitsValue] at this
      simp only [digitsValue, List.foldl_append, List.foldl_cons, List.foldl_nil, this,
        digitChar_value (n % 10) (Nat.mod_lt _ (by decide))]
      omega

/-- Reading back the decimal rendering of a number gives the number. -/
theorem digitsValue_toDigits (n : Nat) : digitsValue (Nat.toDigits 10 n) = n :=
  digitsValue_toDigitsCore (n + 1) n (Nat.lt_succ_self n)

theorem toDigits_injective (n m : Nat) (h : Nat.toDigits 10 n = Nat.toDigits 10 m) :
    n = m := by
  have := congrArg digitsValue h
  simpa [digitsValue_toDigits] using this

theorem sprintfID_ne_base (base : Str) (k : Nat) : sprintfID base k ≠ base := by
  intro h
  have := congrArg List.length h
  simp [sprintfID] at this

theorem sprintfID_injective (base : Str) (n m : Nat)
    (h : sprintfID base n = sprintfID base m) : n = m := by
  simp only [sprintfID, List.append_cancel_left_eq, List.cons.injEq, true_and] at h
  exact toDigits_injective n m h

/-- The identifiers given to two different counter values of one base differ. -/
theorem idOf_ne (base : Str) (n m : Nat) (h : n ≠ m) :
    (if n > 0 then sprintfID base n else base) ≠ (if m > 0 then sprintfID base m else base) := by
  by_cases hn : n > 0 <;> by_cases hm : m > 0
  · rw [if_pos hn, if_pos hm]; exact fun e => h (sprintfID_injective base n m e)
  · rw [if_pos hn, if_neg hm]; exact sprintfID_ne_base base n
  · rw [if_neg hn, if_pos hm]; exact fun e => sprintfID_ne_base base m e.symm
  · omega

/-! ## The sanitizer: structure -/

theorem mem_replaceAll (s : Str) (old : Char) (new : Str) (x : Char) :
    x ∈ replaceAll s old new ↔ (x ∈ s ∧ x ≠ old) ∨ (old ∈ s ∧ x ∈ new) := by
  simp only [replaceAll, List.mem_flatMap]
  constructor
  · rintro ⟨c, hc, hx⟩
    by_cases h : c = old
    · subst h; rw [if_pos rfl] at hx; exact Or.inr ⟨hc, hx⟩
    · rw [if_neg h] at hx
      have : x = c := by simpa using hx
      subst this; exact Or.inl ⟨hc, h⟩
  · rintro (⟨hx, hne⟩ | ⟨ho, hx⟩)
    · exact ⟨x, hx, by simp [hne]⟩
    · exact ⟨old, ho, by simp [hx]⟩

theorem replaceAll_append (s t : Str) (old : Char) (new : Str) :
    replaceAll (s ++ t) old new = replaceAll s old new ++ replaceAll t old new := by
  simp [replaceAll]

theorem applyReplacements_append (tab : List (Char × Str)) (s t : Str) :
    applyReplacements tab (s ++ t) = applyReplacements tab s ++ applyReplacements tab t := by
  induction tab generalizing s t with
  | nil => rfl
  | cons p ps ih =>
    simp only [applyReplacements, List.foldl_cons, replaceAll_append] at ih ⊢
    exact ih _ _

theorem applyReplacements_nil (tab : List (Char × Str)) : applyReplacements tab [] = [] := by
  induction tab with
  | nil => rfl
  | cons p ps ih => simpa [applyReplacements, replaceAll] using ih

theorem escapeString_append (s t : Str) :
    escapeString (s ++ t) = escapeString s ++ escapeString t := by
  simp [escapeString]

theorem toLower_append (tbl : Char → Char) (s t : Str) :
    toLower tbl (s ++ t) = toLower tbl s ++ toLower tbl t := by
  simp [toLower]

/-- The sanitizer acts on a concatenation piece by piece. -/
theorem sanitizeID_append (tbl : Char → Char) (s t : Str) :
    sanitizeID tbl (s ++ t) = sanitizeID tbl s ++ sanitizeID tbl t := by
  simp [sanitizeID, escapeString_append, toLower_append, applyReplacements_append]

theorem sanitizeID_nil (tbl : Char → Char) : sanitizeID tbl [] = [] := by
  simp [sanitizeID, escapeString, toLower, applyReplacements_nil]

/-- After a sequence of replacements whose tokens contain none of the replaced
characters, none of the replaced characters is left. -/
theorem applyReplacements_not_mem_aux (rest : List (Char × Str)) :
    ∀ (done : List (Char × Str)) (s : Str),
      (∀ q ∈ done, q.1 ∉ s) →
      (∀ p ∈ rest, ∀ q ∈ done ++ rest, q.1 ∉ p.2) →
      ∀ q ∈ done ++ rest, q.1 ∉ applyReplacements rest s := by
  induction rest with
  | nil =>
    intro done s h1 _ q hq
    simpa [applyReplacements] using h1 q (by simpa using hq)
  | cons p ps ih =>
    intro done s h1 h2 q hq
    have hstep : applyReplacements (p :: ps) s
        = applyReplacements ps (replaceAll s p.1 p.2) := rfl
    rw [hstep]
    have hq2 : q ∈ (done ++ [p]) ++ ps := by simpa using hq
    refine ih (done ++ [p]) (replaceAll s p.1 p.2) ?_ ?_ q hq2
    · intro r hr
      rw [mem_replaceAll]
      have hrp : r.1 ∉ p.2 := h2 p (List.mem_cons_self _ _) r (by
        rcases List.mem_append.mp hr with h | h
        · exact List.mem_append_left _ h
        · exact List.mem_append_right _ (by
            have : r = p := by simpa using h
            subst this; exact List.mem_cons_self _ _))
      rintro (⟨hs, hne⟩ | ⟨_, hx⟩)
      · rcases List.mem_append.mp hr with h | h
        · exact h1 r h hs
        · have : r = p := by simpa using h
          subst this; exact hne rfl
      · exact hrp hx
    · intro p2 hp2 r hr
      exact h2 p2 (List.mem_cons_of_mem _ hp2) r (by simpa using hr)

theorem applyReplacements_not_mem (tab : List (Char × Str)) (s : Str)
    (hclean : ∀ p ∈ tab, ∀ q ∈ tab, q.1 ∉ p.2) :
    ∀ q ∈ tab, q.1 ∉ applyReplacements tab s := by
  have := applyReplacements_not_mem_aux tab [] s (by simp) (by simpa using hclean)
  simpa using this

/-- A property of characters shared by the input and by every token holds of the
output of a sequence of replacements. -/
theorem applyReplacements_forall (P : Char → Prop) (tab : List (Char × Str)) (s : Str)
    (hs : ∀ c ∈ s, P c) (htab : ∀ p ∈ tab, ∀ c ∈ p.2, P c) :
    ∀ c ∈ applyReplacements tab s, P c := by
  induction tab generalizing s with
  | nil => simpa [applyReplacements] using hs
  | cons p ps ih =>
    have hstep : applyReplacements (p :: ps) s
        = applyReplacements ps (replaceAll s p.1 p.2) := rfl
    rw [hstep]
    refine ih _ ?_ (fun q hq => htab q (List.mem_cons_of_mem _ hq))
    intro c hc
    rcases (mem_replaceAll s p.1 p.2 c).mp hc with ⟨h, _⟩ | ⟨_, h⟩
    · exact hs c h
    · exact htab p (List.mem_cons_self _ _) c h

theorem replacements_clean : ∀ p ∈ replacements, ∀ q ∈ replacements, q.1 ∉ p.2 := by
  decide!

theorem replacements_tokens_lower :
    ∀ p ∈ replacements, ∀ c ∈ p.2, c.toNat < 128 ∧ ¬ (65 ≤ c.toNat ∧ c.toNat ≤ 90) := by
  decide!

/-! ## Inputs in ASCII do not depend on the case table -/

theorem toLowerRune_ascii (tbl tbl2 : Char → Char) (c : Char) (h : c.toNat < 128) :
    toLowerRune tbl c = toLowerRune tbl2 c := by
  simp [toLowerRune, h]

theorem escapeString_ascii (s : Str) (h : ∀ c ∈ s, c.toNat < 128) :
    ∀ c ∈ escapeString s, c.toNat < 128 := by
  intro c hc
  simp only [escapeString, List.mem_flatMap] at hc
  obtain ⟨a, ha, hca⟩ := hc
  unfold escapeRune at hca
  split_ifs at hca
  all_goals first
    | (simp at hca; rw [hca]; exact h a ha)
    | (revert c; decide!)

theorem sanitizeID_ascii (tbl tbl2 : Char → Char) (s : Str) (h : ∀ c ∈ s, c.toNat < 128) :
    sanitizeID tbl s = sanitizeID tbl2 s := by
  unfold sanitizeID toLower
  congr 1
  exact List.map_congr_left (fun c hc => toLowerRune_ascii tbl tbl2 c (escapeString_ascii s h c hc))

theorem emit_congr (tbl tbl2 : Char → Char) (st : LoopState) (term description tag : Str)
    (h : sanitizeID tbl term = sanitizeID tbl2 term) :
    emit tbl st term description tag = emit tbl2 st term description tag := by
  simp only [emit, h]

theorem foldl_stepPure_congr (tbl tbl2 : Char → Char) (rows : List (List Str))
    (st : LoopState) (h : ∀ r ∈ rows, baseOf tbl r = baseOf tbl2 r) :
    rows.foldl (stepPure tbl) st = rows.foldl (stepPure tbl2) st := by
  induction rows generalizing st with
  | nil => simp only [List.foldl_nil]
  | cons r rs ih =>
    have hstep : stepPure tbl st r = stepPure tbl2 st r := by
      rcases stepPure_cases tbl st r with ⟨hlen, _⟩ | ⟨t, d, rest, rfl⟩
      · rw [stepPure_short tbl st r hlen, stepPure_short tbl2 st r hlen]
      · have := h _ (List.mem_cons_self _ _)
        simp only [baseOf, List.headD_cons] at this
        simp only [stepPure]
        exact emit_congr tbl tbl2 st _ _ _ this
    rw [List.foldl_cons, List.foldl_cons, hstep]
    exact ih _ (fun r hr => h r (List.mem_cons_of_mem _ hr))

/-- On rows whose trimmed first fields are ASCII the loop does not consult the
case table. -/
theorem buildEntries_ascii (tbl tbl2 : Char → Char) (rows : List (List Str))
    (h : ∀ r ∈ rows, ∀ c ∈ trimSpace (r.headD []), c.toNat < 128) :
    buildEntries tbl rows = buildEntries tbl2 rows := by
  rw [buildEntries_eq, buildEntries_eq, foldl_stepPure_congr tbl tbl2 rows _
    (fun r hr => sanitizeID_ascii tbl tbl2 _ (h r hr))]

/-! ## The fields of an entry -/

theorem entryOf_ID (tbl : Char → Char) (k : Nat) (term description tag : Str) :
    (entryOf tbl k term description tag).ID
      = if k > 0 then sprintfID (sanitizeID tbl term) k else sanitizeID tbl term := by
  simp [entryOf, emit]

theorem entryOf_Title (tbl : Char → Char) (k : Nat) (term description tag : Str) :
    (entryOf tbl k term description tag).Title = escapeString term := by
  simp [entryOf, emit]

theorem entryOf_Index (tbl : Char → Char) (k : Nat) (term description tag : Str) :
    (entryOf tbl k term description tag).Index = [⟨escapeString term⟩] := by
  simp [entryOf, emit]

theorem entryOf_Content (tbl : Char → Char) (k : Nat) (term description tag : Str) :
    (entryOf tbl k term description tag).Content
      = "<h1>".toList ++ escapeString term ++ "</h1>\n<div>\n".toList
          ++ escapeString description ++ "\n</div>".toList
          ++ (if tag = [] then []
              else "\n<span class=\"tag\">".toList ++ escapeString tag ++ "</span>".toList) := by
  by_cases h : tag = [] <;> simp [entryOf, emit, h]

theorem validRows_append (a b : List (List Str)) :
    validRows (a ++ b) = validRows a ++ validRows b := by
  simp [validRows]

theorem occurrences_append (tbl : Char → Char) (base : Str) (a b : List (List Str)) :
    occurrences tbl base (a ++ b) = occurrences tbl base a + occurrences tbl base b := by
  simp [occurrences, validRows_append]

theorem occurrences_cons_same (tbl : Char → Char) (t d : Str) (rest : List Str)
    (rows : List (List Str)) (base : Str) (h : sanitizeID tbl (trimSpace t) = base) :
    occurrences tbl base ((t :: d :: rest) :: rows) = occurrences tbl base rows + 1 := by
  have hv : validRows ((t :: d :: rest) :: rows) = (t :: d :: rest) :: validRows rows := by
    simp [validRows, List.filter_cons]
  simp only [occurrences, hv, List.countP_cons, baseOf, List.headD_cons, decide_eq_true_eq,
    if_pos h]

theorem occurrences_eq_zero (tbl : Char → Char) (base : Str) (rows : List (List Str))
    (h : ∀ r ∈ validRows rows, baseOf tbl r ≠ base) : occurrences tbl base rows = 0 := by
  simp only [occurrences, List.countP_eq_zero, decide_eq_true_eq]
  exact h

/-! ## Identifiers -/

/-- Claim C1 at its failing input: the rows with terms `go`, `go`, `go_1` give the
identifiers `go`, `go_1`, `go_1`, so the second and third entries carry the same
id and the identifiers of the document are not pairwise distinct. -/
theorem entry_ids_collide : ∀ tbl : Char → Char, ∃ es,
    buildEntries tbl [["go".toList, "x".toList], ["go".toList, "y".toList],
      ["go_1".toList, "z".toList]] = some es ∧
    es.map DictionaryEntry.ID = ["go".toList, "go_1".toList, "go_1".toList] ∧
    ¬ (es.map DictionaryEntry.ID).Nodup := by
  intro tbl
  have h : buildEntries asciiTable [["go".toList, "x".toList], ["go".toList, "y".toList],
      ["go_1".toList, "z".toList]]
      = some [⟨"go".toList, "go".toList, [⟨"go".toList⟩], "<h1>go</h1>\n<div>\nx\n</div>".toList⟩,
          ⟨"go_1".toList, "go".toList, [⟨"go".toList⟩], "<h1>go</h1>\n<div>\ny\n</div>".toList⟩,
          ⟨"go_1".toList, "go_1".toList, [⟨"go_1".toList⟩],
            "<h1>go_1</h1>\n<div>\nz\n</div>".toList⟩] := by
    decide!
  refine ⟨_, (buildEntries_ascii tbl asciiTable _ (by decide!)).trans h, ?_, ?_⟩
  · decide!
  · decide!

/-- Claim C2: two distinct valid rows with the same base identifier get different
ids, and a valid row with no earlier valid row of the same base gets the base
identifier itself, without suffix. -/
theorem same_base_ids_distinct (tbl : Char → Char) :
    (∀ (pre mid post : List (List Str)) (t1 d1 : Str) (rest1 : List Str) (t2 d2 : Str)
        (rest2 : List Str),
      sanitizeID tbl (trimSpace t1) = sanitizeID tbl (trimSpace t2) →
      ∃ es e1 e2,
        buildEntries tbl (pre ++ (t1 :: d1 :: rest1) :: (mid ++ (t2 :: d2 :: rest2) :: post))
          = some es ∧
        es[(validRows pre).length]? = some e1 ∧
        es[(validRows (pre ++ (t1 :: d1 :: rest1) :: mid)).length]? = some e2 ∧
        e1.ID ≠ e2.ID) ∧
    (∀ (pre post : List (List Str)) (t d : Str) (rest : List Str),
      (∀ r ∈ validRows pre, baseOf tbl r ≠ sanitizeID tbl (trimSpace t)) →
      ∃ es e,
        buildEntries tbl (pre ++ (t :: d :: rest) :: post) = some es ∧
        es[(validRows pre).length]? = some e ∧
        e.ID = sanitizeID tbl (trimSpace t)) := by
  constructor
  · intro pre mid post t1 d1 rest1 t2 d2 rest2 hbase
    obtain ⟨es, hes, h1⟩ := buildEntries_at tbl pre (mid ++ (t2 :: d2 :: rest2) :: post) t1 d1 rest1
    obtain ⟨es2, hes2, h2⟩ := buildEntries_at tbl (pre ++ (t1 :: d1 :: rest1) :: mid) post t2 d2 rest2
    have hrows : (pre ++ (t1 :: d1 :: rest1) :: mid) ++ (t2 :: d2 :: rest2) :: post
        = pre ++ (t1 :: d1 :: rest1) :: (mid ++ (t2 :: d2 :: rest2) :: post) := by simp
    rw [hrows, hes] at hes2
    obtain rfl : es = es2 := Option.some.inj hes2
    refine ⟨es, _, _, hes, h1, h2, ?_⟩
    rw [entryOf_ID, entryOf_ID, ← hbase]
    apply idOf_ne
    rw [occurrences_append, occurrences_cons_same tbl t1 d1 rest1 mid _ rfl]
    omega
  · intro pre post t d rest hfirst
    obtain ⟨es, hes, h1⟩ := buildEntries_at tbl pre post t d rest
    refine ⟨es, _, hes, h1, ?_⟩
    rw [entryOf_ID, occurrences_eq_zero tbl _ pre hfirst]
    simp

/-- Claim C2, at the rows with terms `Go` and `go`, which share the base `go`. -/
theorem same_base_ids_distinct_witness :
    (sanitizeID asciiTable (trimSpace "Go".toList) = sanitizeID asciiTable (trimSpace "go".toList) ∧
      ∃ es e1 e2,
        buildEntries asciiTable ([] ++ ["Go".toList, "x".toList]
          :: ([] ++ ["go".toList, "y".toList] :: [])) = some es ∧
        es[(validRows []).length]? = some e1 ∧
        es[(validRows ([] ++ ["Go".toList, "x".toList] :: [])).length]? = some e2 ∧
        e1.ID ≠ e2.ID) ∧
    ((∀ r ∈ validRows [], baseOf asciiTable r ≠ sanitizeID asciiTable (trimSpace "Go".toList)) ∧
      ∃ es e,
        buildEntries asciiTable ([] ++ ["Go".toList, "x".toList] :: []) = some es ∧
        es[(validRows []).length]? = some e ∧
        e.ID = sanitizeID asciiTable (trimSpace "Go".toList)) :=
  ⟨⟨by decide!, (same_base_ids_distinct asciiTable).1 [] [] [] "Go".toList "x".toList []
      "go".toList "y".toList [] (by decide!)⟩,
    ⟨by simp [validRows], (same_base_ids_distinct asciiTable).2 [] [] "Go".toList "x".toList []
      (by simp [validRows])⟩⟩

/-- Claim C3: the id of a valid row is its base identifier when no earlier valid
row has the same base, and otherwise the base followed by `_` and the decimal
rendering of the number `k` of earlier valid rows with the same base. The terms
`Go`, `Go` give the ids `go`, `go_1`; the terms `Apple`, `apple!` give the ids
`apple`, `apple_exclamation_`. -/
theorem id_counts_earlier_occurrences (tbl : Char → Char) :
    (∀ (pre post : List (List Str)) (t d : Str) (rest : List Str),
      ∃ es e,
        buildEntries tbl (pre ++ (t :: d :: rest) :: post) = some es ∧
        es[(validRows pre).length]? = some e ∧
        e.ID = (if occurrences tbl (sanitizeID tbl (trimSpace t)) pre = 0
          then sanitizeID tbl (trimSpace t)
          else sanitizeID tbl (trimSpace t) ++ "_".toList
            ++ Nat.toDigits 10 (occurrences tbl (sanitizeID tbl (trimSpace t)) pre))) ∧
    (buildEntries tbl [["Go".toList, "x".toList], ["Go".toList, "y".toList]]).map
        (List.map DictionaryEntry.ID) = some ["go".toList, "go_1".toList] ∧
    (buildEntries tbl [["Go".toList, "x".toList], ["Rust".toList, "y".toList],
        ["Go".toList, "z".toList], ["go".toList], [" GO ".toList, "w".toList]]).map
        (List.map DictionaryEntry.ID)
      = some ["go".toList, "rust".toList, "go_1".toList, "go_2".toList] ∧
    (buildEntries tbl [["Apple".toList, "A fruit".toList, "".toList],
        ["apple!".toList, "Another fruit".toList, "food".toList]]).map
        (List.map DictionaryEntry.ID) = some ["apple".toList, "apple_exclamation_".toList] := by
  refine ⟨?_, ?_, ?_, ?_⟩
  · intro pre post t d rest
    obtain ⟨es, hes, h1⟩ := buildEntries_at tbl pre post t d rest
    refine ⟨es, _, hes, h1, ?_⟩
    rw [entryOf_ID]
    by_cases hk : occurrences tbl (sanitizeID tbl (trimSpace t)) pre = 0
    · simp [hk]
    · rw [if_pos (Nat.pos_of_ne_zero hk), if_neg hk]
      simp [sprintfID]
  · rw [buildEntries_ascii tbl asciiTable _ (by decide!)]
    decide!
  · rw [buildEntries_ascii tbl asciiTable _ (by decide!)]
    decide!
  · rw [buildEntries_ascii tbl asciiTable _ (by decide!)]
    decide!

/-! ## The sanitizer: output alphabet -/

theorem toLowerRune_fixed_of_ascii (tbl : Char → Char) (c : Char) (h : c.toNat < 128)
    (hu : ¬ (65 ≤ c.toNat ∧ c.toNat ≤ 90)) : toLowerRune tbl c = c := by
  simp only [toLowerRune, if_pos h, if_neg hu]

theorem toLowerRune_upper_ne (tbl : Char → Char) (c : Char)
    (hu : 65 ≤ c.toNat ∧ c.toNat ≤ 90) : toLowerRune tbl c ≠ c := by
  have h128 : c.toNat < 128 := by omega
  simp only [toLowerRune, if_pos h128, if_pos hu]
  have hc : c = Char.ofNat c.toNat := (Char.ofNat_toNat c).symm
  obtain ⟨h1, h2⟩ := hu
  rw [hc]
  generalize c.toNat = n at h1 h2
  interval_cases n <;> decide

theorem asciiTable_idempotent (c : Char) :
    toLowerRune asciiTable (toLowerRune asciiTable c) = toLowerRune asciiTable c := by
  by_cases h : c.toNat < 128
  · by_cases hu : 65 ≤ c.toNat ∧ c.toNat ≤ 90
    · have hc : c = Char.ofNat c.toNat := (Char.ofNat_toNat c).symm
      obtain ⟨h1, h2⟩ := hu
      rw [hc]
      generalize c.toNat = n at h1 h2
      interval_cases n <;> decide
    · rw [toLowerRune_fixed_of_ascii asciiTable c h hu, toLowerRune_fixed_of_ascii asciiTable c h hu]
  · simp [toLowerRune, asciiTable, h]

theorem sanitizeID_chars_lower (tbl : Char → Char)
    (hidem : ∀ c, toLowerRune tbl (toLowerRune tbl c) = toLowerRune tbl c) (s : Str) :
    ∀ c ∈ sanitizeID tbl s, toLowerRune tbl c = c := by
  apply applyReplacements_forall (fun c => toLowerRune tbl c = c)
  · intro c hc
    simp only [toLower, List.mem_map] at hc
    obtain ⟨a, _, rfl⟩ := hc
    exact hidem a
  · intro p hp c hc
    obtain ⟨h1, h2⟩ := replacements_tokens_lower p hp c hc
    exact toLowerRune_fixed_of_ascii tbl c h1 h2

theorem reservedPunctuation_replaced :
    ∀ c ∈ reservedPunctuation, ∃ p ∈ replacements, p.1 = c := by
  decide!

theorem sanitizeID_not_mem_of_replaced (tbl : Char → Char) (s : Str) (p : Char × Str)
    (hp : p ∈ replacements) : p.1 ∉ sanitizeID tbl s :=
  applyReplacements_not_mem replacements _ replacements_clean p hp

/-- Claim C4, amended: the output of `sanitizeID` is a fixed point of lowercasing
(lowercasing it again changes nothing, so it has no character that lowercasing
would change, and in particular no letter `A`-`Z`) and contains none of the 28
reserved punctuation characters. Lowercasing a rune is assumed idempotent, as it
is for the Unicode case table. -/
theorem sanitizeID_lowercase_no_punctuation (tbl : Char → Char)
    (hidem : ∀ c, toLowerRune tbl (toLowerRune tbl c) = toLowerRune tbl c) (s : Str) :
    toLower tbl (sanitizeID tbl s) = sanitizeID tbl s ∧
    (∀ c ∈ sanitizeID tbl s, toLowerRune tbl c = c) ∧
    (∀ c ∈ sanitizeID tbl s, ¬ (65 ≤ c.toNat ∧ c.toNat ≤ 90)) ∧
    (∀ c ∈ reservedPunctuation, c ∉ sanitizeID tbl s) ∧
    reservedPunctuation.length = 28 ∧ reservedPunctuation.Nodup := by
  have hfix := sanitizeID_chars_lower tbl hidem s
  refine ⟨?_, hfix, ?_, ?_, by decide!, by decide!⟩
  · unfold toLower
    conv_rhs => rw [← List.map_id (sanitizeID tbl s)]
    exact List.map_congr_left (fun c hc => hfix c hc)
  · intro c hc hu
    exact toLowerRune_upper_ne tbl c hu (hfix c hc)
  · intro c hc
    obtain ⟨p, hp, rfl⟩ := reservedPunctuation_replaced c hc
    exact sanitizeID_not_mem_of_replaced tbl s p hp

/-- Claim C4, amended, at the term `A & B` with the case table that fixes every
rune outside ASCII. -/
theorem sanitizeID_lowercase_no_punctuation_witness :
    (∀ c, toLowerRune asciiTable (toLowerRune asciiTable c) = toLowerRune asciiTable c) ∧
    (toLower asciiTable (sanitizeID asciiTable "A & B".toList)
        = sanitizeID asciiTable "A & B".toList ∧
      (∀ c ∈ sanitizeID asciiTable "A & B".toList, toLowerRune asciiTable c = c) ∧
      (∀ c ∈ sanitizeID asciiTable "A & B".toList, ¬ (65 ≤ c.toNat ∧ c.toNat ≤ 90)) ∧
      (∀ c ∈ reservedPunctuation, c ∉ sanitizeID asciiTable "A & B".toList) ∧
      reservedPunctuation.length = 28 ∧ reservedPunctuation.Nodup) :=
  ⟨asciiTable_idempotent,
    sanitizeID_lowercase_no_punctuation asciiTable asciiTable_idempotent "A & B".toList⟩

/-- Claim C5: `sanitizeID` escapes first and substitutes afterwards, so an `&`
becomes `_and_amp_semicolon_`: the term `A & B` gives `a__and_amp_semicolon__b`,
not `a__and__b`, and in general the image of `s ++ "&" ++ t` is the image of `s`,
then `_and_amp_semicolon_`, then the image of `t`. -/
theorem sanitizeID_ampersand (tbl : Char → Char) :
    sanitizeID tbl "A & B".toList = "a__and_amp_semicolon__b".toList ∧
    sanitizeID tbl "A & B".toList ≠ "a__and__b".toList ∧
    escapeString "A & B".toList = "A &amp; B".toList ∧
    ∀ s t : Str, sanitizeID tbl (s ++ "&".toList ++ t)
      = sanitizeID tbl s ++ "_and_amp_semicolon_".toList ++ sanitizeID tbl t := by
  have h1 : sanitizeID tbl "A & B".toList = "a__and_amp_semicolon__b".toList :=
    (sanitizeID_ascii tbl asciiTable _ (by decide!)).trans (by decide!)
  have h2 : sanitizeID tbl "&".toList = "_and_amp_semicolon_".toList :=
    (sanitizeID_ascii tbl asciiTable _ (by decide!)).trans (by decide!)
  refine ⟨h1, ?_, by decide!, ?_⟩
  · rw [h1]; decide!
  · intro s t
    rw [sanitizeID_append, sanitizeID_append, h2]

/-- Claim C7: a row with fewer than two fields is skipped without error and leaves
the entries and the counters as they are, so the loop gives on any list of rows
the result (entries and counters) it gives on the list without those rows. -/
theorem short_rows_skipped (tbl : Char → Char) (rows : List (List Str)) :
    (∀ (st : LoopState) (r : List Str), r.length < 2 → processRecord tbl st r = some st) ∧
    (∃ es, buildEntries tbl rows = some es) ∧
    buildEntries tbl rows
      = buildEntries tbl (rows.filter (fun r => decide (2 ≤ r.length))) ∧
    ∀ st : LoopState, mainLoop tbl st rows
      = mainLoop tbl st (rows.filter (fun r => decide (2 ≤ r.length))) := by
  have hloop : ∀ st : LoopState, mainLoop tbl st rows
      = mainLoop tbl st (rows.filter (fun r => decide (2 ≤ r.length))) := by
    intro st
    rw [mainLoop_eq_foldl, mainLoop_eq_foldl]
    exact congrArg some (foldl_stepPure_validRows tbl rows st).symm
  refine ⟨?_, ⟨_, buildEntries_eq tbl rows⟩, ?_, hloop⟩
  · intro st r hr
    rw [processRecord_eq_stepPure, stepPure_short tbl st r hr]
  · simp only [buildEntries, hloop]

/-- Claim C7, at a one-field row: the hypothesis of its first part holds there. -/
theorem short_rows_skipped_witness :
    ["only".toList].length < 2 ∧
    processRecord asciiTable LoopState.init ["only".toList] = some LoopState.init :=
  ⟨by decide, (short_rows_skipped asciiTable []).1 LoopState.init ["only".toList] (by decide)⟩

/-- Claim C8: the title of a valid row's entry is the HTML-escaped trimmed term, the
entry has exactly one index element and its value is the same escaped term; the
escaping is that of the raw trimmed term, not of the sanitized id: the term
`A & B` has title and index value `A &amp; B` while its id is
`a__and_amp_semicolon__b`. -/
theorem title_and_index_are_escaped_term (tbl : Char → Char) :
    (∀ (pre post : List (List Str)) (t d : Str) (rest : List Str),
      ∃ es e,
        buildEntries tbl (pre ++ (t :: d :: rest) :: post) = some es ∧
        es[(validRows pre).length]? = some e ∧
        e.Title = escapeString (trimSpace t) ∧
        e.Index.length = 1 ∧
        e.Index.map Index.Value = [escapeString (trimSpace t)]) ∧
    (buildEntries tbl [[" A & B ".toList, "desc".toList, "".toList]]).map
        (List.map (fun e => (e.ID, e.Title, e.Index.map Index.Value)))
      = some [("a__and_amp_semicolon__b".toList, "A &amp; B".toList, ["A &amp; B".toList])] := by
  constructor
  · intro pre post t d rest
    obtain ⟨es, hes, h1⟩ := buildEntries_at tbl pre post t d rest
    refine ⟨es, _, hes, h1, entryOf_Title _ _ _ _ _, ?_, ?_⟩
    · rw [entryOf_Index]; rfl
    · rw [entryOf_Index]; rfl
  · rw [buildEntries_ascii tbl asciiTable _ (by decide!)]
    decide!

/-- Claim C10 as stated fails: the term `a<TAB>b` keeps its tab, whatever the case
table, so the output of `sanitizeID` can contain a whitespace character. -/
theorem sanitizeID_keeps_tab :
    sanitizeID asciiTable "a\tb".toList = "a\tb".toList ∧
    Char.ofNat 9 ∈ sanitizeID asciiTable "a\tb".toList ∧
    isSpace (Char.ofNat 9) = true ∧
    ∀ tbl : Char → Char, sanitizeID tbl "a\tb".toList = sanitizeID asciiTable "a\tb".toList :=
  ⟨by decide!, by decide!, by decide!,
    fun tbl => sanitizeID_ascii tbl asciiTable _ (by decide!)⟩

/-- Claim C10, amended: `sanitizeID` replaces the space character with an
underscore, so its output contains no space and each space of the input has
become `_`; tab, newline and carriage return are kept as they are. -/
theorem sanitizeID_replaces_spaces (tbl : Char → Char) :
    (∀ s : Str, ' ' ∉ sanitizeID tbl s) ∧
    (∀ s t : Str, sanitizeID tbl (s ++ " ".toList ++ t)
      = sanitizeID tbl s ++ "_".toList ++ sanitizeID tbl t) ∧
    (∀ c ∈ [Char.ofNat 9, Char.ofNat 10, Char.ofNat 13], ∀ s t : Str,
      sanitizeID tbl (s ++ [c] ++ t) = sanitizeID tbl s ++ [c] ++ sanitizeID tbl t) := by
  have hone : ∀ c ∈ [' ', Char.ofNat 9, Char.ofNat 10, Char.ofNat 13],
      sanitizeID tbl [c] = sanitizeID asciiTable [c] := by
    intro c hc
    refine sanitizeID_ascii tbl asciiTable _ ?_
    revert c
    decide!
  have hval : ∀ c ∈ [Char.ofNat 9, Char.ofNat 10, Char.ofNat 13],
      sanitizeID asciiTable [c] = [c] := by decide!
  refine ⟨?_, ?_, ?_⟩
  · intro s
    exact sanitizeID_not_mem_of_replaced tbl s (' ', "_".toList) (by decide!)
  · intro s t
    have h2 : sanitizeID tbl " ".toList = "_".toList :=
      (hone ' ' (by decide!)).trans (by decide!)
    rw [sanitizeID_append, sanitizeID_append, h2]
  · intro c hc s t
    have h2 : sanitizeID tbl [c] = [c] :=
      (hone c (List.mem_cons_of_mem _ hc)).trans (hval c hc)
    rw [sanitizeID_append, sanitizeID_append, h2]

/-- Claim C10, amended, at the tab between `a` and `b`. -/
theorem sanitizeID_replaces_spaces_witness :
    Char.ofNat 9 ∈ [Char.ofNat 9, Char.ofNat 10, Char.ofNat 13] ∧
    sanitizeID asciiTable ("a".toList ++ [Char.ofNat 9] ++ "b".toList)
      = sanitizeID asciiTable "a".toList ++ [Char.ofNat 9] ++ sanitizeID asciiTable "b".toList :=
  ⟨by decide, (sanitizeID_replaces_spaces asciiTable).2.2 (Char.ofNat 9) (by decide)
    "a".toList "b".toList⟩

/-! ## Trimming and escaping -/

theorem trimSpace_eq_nil_iff (s : Str) : trimSpace s = [] ↔ ∀ c ∈ s, isSpace c = true := by
  unfold trimSpace
  rw [List.reverse_eq_nil_iff, List.dropWhile_eq_nil_iff]
  constructor
  · intro h
    have h2 : (s.dropWhile isSpace).dropWhile isSpace = [] :=
      List.dropWhile_eq_nil_iff.mpr (fun x hx => h x (List.mem_reverse.mpr hx))
    rw [List.dropWhile_idempotent] at h2
    exact List.dropWhile_eq_nil_iff.mp h2
  · intro h x hx
    rw [List.dropWhile_eq_nil_iff.mpr h] at hx
    simp at hx

/-- What `html.EscapeString` writes for one character: an entity, which starts
with its only `&` and has no markup character, or the character itself when it is
none of the five escaped ones. -/
theorem escapeRune_cases (a : Char) :
    (∃ body, escapeRune a = '&' :: body ∧ escapeRune a ∈ entities ∧ '&' ∉ body ∧
      ∀ c ∈ escapeRune a, c ∉ markupChars) ∨
    (escapeRune a = [a] ∧ a ≠ '&' ∧ a ∉ markupChars) := by
  unfold escapeRune
  split_ifs with h1 h2 h3 h4 h5
  · exact Or.inl ⟨"amp;".toList, by decide!⟩
  · exact Or.inl ⟨"#39;".toList, by decide!⟩
  · exact Or.inl ⟨"lt;".toList, by decide!⟩
  · exact Or.inl ⟨"gt;".toList, by decide!⟩
  · exact Or.inl ⟨"#34;".toList, by decide!⟩
  · refine Or.inr ⟨rfl, h1, ?_⟩
    simp only [markupChars, List.mem_cons, List.mem_singleton, List.not_mem_nil, or_false]
    tauto

theorem escapeString_no_markup (s : Str) : ∀ c ∈ escapeString s, c ∉ markupChars := by
  intro c hc
  simp only [escapeString, List.mem_flatMap] at hc
  obtain ⟨a, _, hca⟩ := hc
  rcases escapeRune_cases a with ⟨_, _, _, _, h⟩ | ⟨h, _, hm⟩
  · exact h c hca
  · rw [h] at hca
    have : c = a := by simpa using hca
    rw [this]; exact hm

theorem escapeString_cons (a : Char) (s : Str) :
    escapeString (a :: s) = escapeRune a ++ escapeString s := by
  simp [escapeString]

/-- Every `&` of an escaped string is the first character of an entity. -/
theorem escapeString_amp (s : Str) :
    ∀ u v, escapeString s = u ++ '&' :: v → ∃ ent ∈ entities, ent <+: '&' :: v := by
  induction s with
  | nil =>
    intro u v h
    simp [escapeString] at h
  | cons a s ih =>
    intro u v h
    rw [escapeString_cons] at h
    rcases escapeRune_cases a with ⟨body, hb, hent, hbody, _⟩ | ⟨ha, hne, _⟩
    · rcases List.append_eq_append_iff.mp h with ⟨w, hu, hs⟩ | ⟨w, hw, hv⟩
      · exact ih w v hs
      · cases w with
        | nil =>
          simp only [List.nil_append] at hv
          exact ih [] v hv.symm
        | cons x w =>
          simp only [List.cons_append, List.cons.injEq] at hv
          obtain ⟨rfl, hv⟩ := hv
          cases u with
          | nil =>
            refine ⟨escapeRune a, hent, ?_⟩
            simp only [List.nil_append] at hw
            rw [hv, hw]
            exact ⟨escapeString s, by simp⟩
          | cons y u =>
            rw [hb] at hw
            simp only [List.cons_append, List.cons.injEq] at hw
            exact absurd (hw.2 ▸ (by simp : '&' ∈ u ++ '&' :: w)) hbody
    · rw [ha] at h
      cases u with
      | nil =>
        simp only [List.nil_append, List.singleton_append, List.cons.injEq] at h
        exact absurd h.1 hne
      | cons y u =>
        simp only [List.cons_append, List.singleton_append, List.cons.injEq] at h
        exact ih u v h.2

/-- Claim C6: the content of a valid row's entry is
`<h1>` E(term) `</h1>\n<div>\n` E(description) `\n</div>`, followed by
`\n<span class="tag">` E(tag) `</span>` exactly when the row has a third field that
is not empty after trimming; a missing, empty or whitespace-only third field adds
nothing. -/
theorem content_template (tbl : Char → Char) (pre post : List (List Str)) (t d : Str)
    (rest : List Str) :
    ∃ es e,
      buildEntries tbl (pre ++ (t :: d :: rest) :: post) = some es ∧
      es[(validRows pre).length]? = some e ∧
      (∀ g rest2, rest = g :: rest2 → trimSpace g ≠ [] →
        e.Content = "<h1>".toList ++ escapeString (trimSpace t) ++ "</h1>\n<div>\n".toList
          ++ escapeString (trimSpace d) ++ "\n</div>".toList
          ++ ("\n<span class=\"tag\">".toList ++ escapeString (trimSpace g)
            ++ "</span>".toList)) ∧
      ((rest = [] ∨ ∃ g rest2, rest = g :: rest2 ∧ ∀ c ∈ g, isSpace c = true) →
        e.Content = "<h1>".toList ++ escapeString (trimSpace t) ++ "</h1>\n<div>\n".toList
          ++ escapeString (trimSpace d) ++ "\n</div>".toList) := by
  obtain ⟨es, hes, h1⟩ := buildEntries_at tbl pre post t d rest
  refine ⟨es, _, hes, h1, ?_, ?_⟩
  · intro g rest2 hrest hg
    subst hrest
    rw [entryOf_Content]
    simp only [tagOf, if_neg hg]
  · intro h
    have htag : tagOf rest = [] := by
      rcases h with rfl | ⟨g, rest2, rfl, hg⟩
      · rfl
      · exact (trimSpace_eq_nil_iff g).mpr hg
    rw [entryOf_Content, if_pos htag, List.append_nil]

/-- Claim C6, at a row with the tag `food`, a row without third field and a row
whose third field is blank. -/
theorem content_template_witness :
    (∃ es e,
      buildEntries asciiTable ([] ++ ["Pear".toList, "A fruit".toList, " food ".toList] :: [])
        = some es ∧
      es[(validRows []).length]? = some e ∧
      e.Content = "<h1>Pear</h1>\n<div>\nA fruit\n</div>\n<span class=\"tag\">food</span>".toList) ∧
    (∃ es e,
      buildEntries asciiTable ([] ++ ["Pear".toList, "A fruit".toList, "  ".toList] :: [])
        = some es ∧
      es[(validRows []).length]? = some e ∧
      e.Content = "<h1>Pear</h1>\n<div>\nA fruit\n</div>".toList) := by
  constructor
  · obtain ⟨es, e, h1, h2, h3, _⟩ := content_template asciiTable [] [] "Pear".toList
      "A fruit".toList [" food ".toList]
    refine ⟨es, e, h1, h2, ?_⟩
    rw [h3 " food ".toList [] rfl (by decide!)]
    decide!
  · obtain ⟨es, e, h1, h2, _, h4⟩ := content_template asciiTable [] [] "Pear".toList
      "A fruit".toList ["  ".toList]
    refine ⟨es, e, h1, h2, ?_⟩
    rw [h4 (Or.inr ⟨"  ".toList, [], rfl, by decide!⟩)]
    decide!

/-- Claim C9: an escaped string has no `<`, `>`, double quote or apostrophe and each
of its `&` starts one of the entities `&amp;` `&#39;` `&lt;` `&gt;` `&#34;`; hence
the content of a valid row's entry is the fixed template with its placeholders
filled by strings free of `<` and `>`, the span being present or not. -/
theorem escaped_text_has_no_markup (tbl : Char → Char) :
    (∀ s : Str,
      (∀ c ∈ escapeString s, c ∉ markupChars) ∧
      (∀ u v, escapeString s = u ++ '&' :: v → ∃ ent ∈ entities, ent <+: '&' :: v)) ∧
    (∀ (pre post : List (List Str)) (t d : Str) (rest : List Str),
      ∃ es e a b g,
        buildEntries tbl (pre ++ (t :: d :: rest) :: post) = some es ∧
        es[(validRows pre).length]? = some e ∧
        (∀ c ∈ a ++ b ++ g, c ∉ markupChars) ∧
        (e.Content = "<h1>".toList ++ a ++ "</h1>\n<div>\n".toList ++ b ++ "\n</div>".toList ∨
          e.Content = "<h1>".toList ++ a ++ "</h1>\n<div>\n".toList ++ b ++ "\n</div>".toList
            ++ ("\n<span class=\"tag\">".toList ++ g ++ "</span>".toList))) := by
  constructor
  · intro s
    exact ⟨escapeString_no_markup s, escapeString_amp s⟩
  · intro pre post t d rest
    obtain ⟨es, hes, h1⟩ := buildEntries_at tbl pre post t d rest
    refine ⟨es, _, escapeString (trimSpace t), escapeString (trimSpace d),
      escapeString (tagOf rest), hes, h1, ?_, ?_⟩
    · intro c hc
      rw [← escapeString_append, ← escapeString_append] at hc
      exact escapeString_no_markup _ c hc
    · rw [entryOf_Content]
      by_cases htag : tagOf rest = []
      · left; rw [if_pos htag, List.append_nil]
      · right; rw [if_neg htag]

/-- Claim C9, at the `&` of the escaped form `a&amp;b` of `a&b`. -/
theorem escaped_text_has_no_markup_witness :
    escapeString "a&b".toList = "a".toList ++ '&' :: "amp;b".toList ∧
    ∃ ent ∈ entities, ent <+: '&' :: "amp;b".toList :=
  ⟨by decide!, ((escaped_text_has_no_markup asciiTable).1 "a&b".toList).2 "a".toList
    "amp;b".toList (by decide!)⟩

/-! ## The document as an image of the rows -/

theorem foldl_titles (tbl : Char → Char) (rows : List (List Str)) (st : LoopState) :
    (rows.foldl (stepPure tbl) st).entries.map DictionaryEntry.Title
      = st.entries.map DictionaryEntry.Title
        ++ (validRows rows).map (fun r => escapeString (trimSpace (r.headD []))) := by
  induction rows generalizing st with
  | nil => simp [validRows]
  | cons r rs ih =>
    rcases stepPure_cases tbl st r with ⟨hlen, h⟩ | ⟨t, d, rest, rfl⟩
    · have hv : validRows (r :: rs) = validRows rs := by
        simp [validRows, List.filter_cons, Nat.not_le.mpr hlen]
      rw [List.foldl_cons, h, hv]
      exact ih st
    · have hv : validRows ((t :: d :: rest) :: rs) = (t :: d :: rest) :: validRows rs := by
        simp [validRows, List.filter_cons]
      rw [List.foldl_cons, ih, stepPure_valid, hv]
      simp [entryOf_Title]

/-- Claim C11: the loop gives one entry per row with at least two fields, in the
order of the rows: the number of entries is the number of such rows and the
titles of the entries are, position by position, the HTML-escaped trimmed terms
of those rows. -/
theorem entries_follow_valid_rows (tbl : Char → Char) (rows : List (List Str)) :
    ∃ es, buildEntries tbl rows = some es ∧
      es.length = (rows.filter (fun r => decide (2 ≤ r.length))).length ∧
      es.map DictionaryEntry.Title
        = (rows.filter (fun r => decide (2 ≤ r.length))).map
            (fun r => escapeString (trimSpace (r.headD []))) ∧
      ∀ (i : Nat) (r : List Str),
        (rows.filter (fun r => decide (2 ≤ r.length)))[i]? = some r →
        ∃ e, es[i]? = some e ∧ e.Title = escapeString (trimSpace (r.headD [])) := by
  refine ⟨_, buildEntries_eq tbl rows, ?_, ?_, ?_⟩
  · simpa [LoopState.init, validRows] using foldl_entries_length tbl rows LoopState.init
  · simpa [LoopState.init, validRows] using foldl_titles tbl rows LoopState.init
  · intro i r hr
    have ht : (rows.foldl (stepPure tbl) LoopState.init).entries.map DictionaryEntry.Title
        = (rows.filter (fun r => decide (2 ≤ r.length))).map
            (fun r => escapeString (trimSpace (r.headD []))) := by
      simpa [LoopState.init, validRows] using foldl_titles tbl rows LoopState.init
    have hi := congrArg (fun l => l[i]?) ht
    simp only [List.getElem?_map, hr, Option.map_some'] at hi
    obtain ⟨e, he, hte⟩ := Option.map_eq_some'.mp hi
    exact ⟨e, he, hte⟩

/-- Claim C11, at three rows of which the second has a single field. -/
theorem entries_follow_valid_rows_witness :
    ([["Go".toList, "x".toList], ["skipped".toList], ["A<B".toList, "y".toList]].filter
        (fun r => decide (2 ≤ r.length)))[1]? = some ["A<B".toList, "y".toList] ∧
    ∃ es, buildEntries asciiTable
        [["Go".toList, "x".toList], ["skipped".toList], ["A<B".toList, "y".toList]] = some es ∧
      ∃ e, es[1]? = some e ∧ e.Title = "A&lt;B".toList := by
  obtain ⟨es, h1, _, _, h4⟩ := entries_follow_valid_rows asciiTable
    [["Go".toList, "x".toList], ["skipped".toList], ["A<B".toList, "y".toList]]
  obtain ⟨e, he, ht⟩ := h4 1 ["A<B".toList, "y".toList] (by decide)
  refine ⟨by decide, es, h1, e, he, ?_⟩
  rw [ht]
  decide!

/-- Claim C14: `sanitizeID` is not injective: the different terms `a b` and `a_b`
have the same image, and so have `Go` and `go`. -/
theorem sanitizeID_not_injective (tbl : Char → Char) :
    "a b".toList ≠ "a_b".toList ∧
    sanitizeID tbl "a b".toList = sanitizeID tbl "a_b".toList ∧
    "Go".toList ≠ "go".toList ∧
    sanitizeID tbl "Go".toList = sanitizeID tbl "go".toList ∧
    ¬ Function.Injective (sanitizeID tbl) := by
  have h1 : sanitizeID tbl "a b".toList = sanitizeID tbl "a_b".toList := by
    rw [sanitizeID_ascii tbl asciiTable _ (by decide!),
      sanitizeID_ascii tbl asciiTable "a_b".toList (by decide!)]
    decide!
  have h2 : sanitizeID tbl "Go".toList = sanitizeID tbl "go".toList := by
    rw [sanitizeID_ascii tbl asciiTable _ (by decide!),
      sanitizeID_ascii tbl asciiTable "go".toList (by decide!)]
    decide!
  refine ⟨by decide, h1, by decide, h2, ?_⟩
  intro hinj
  exact absurd (hinj h2) (by decide)

/-- Claim C15 at its failing input: on the empty list of records (an empty CSV
file) the slice expression `records[1:]` is out of range and no document is
produced; on a list with a first record the loop runs on exactly the records
after the first, whatever the first is, and no index is out of range. -/
theorem empty_csv_is_out_of_range : ∀ tbl : Char → Char,
    mainEntries tbl [] = none ∧
    (∀ (header : List Str) (rest : List (List Str)),
      mainEntries tbl (header :: rest) = buildEntries tbl rest ∧
      ∃ es, mainEntries tbl (header :: rest) = some es) := by
  intro tbl
  refine ⟨rfl, ?_⟩
  intro header rest
  have h : mainEntries tbl (header :: rest) = buildEntries tbl rest := by
    simp [mainEntries, dropHeader]
  exact ⟨h, _, h.trans (buildEntries_eq tbl rest)⟩

/-! ## Fields the loop does not look at, and trimming -/

theorem buildEntries_congr_row (tbl : Char → Char) (pre post : List (List Str))
    (r1 r2 : List Str) (h : ∀ st, stepPure tbl st r1 = stepPure tbl st r2) :
    buildEntries tbl (pre ++ r1 :: post) = buildEntries tbl (pre ++ r2 :: post) := by
  rw [buildEntries_eq, buildEntries_eq, List.foldl_append, List.foldl_append,
    List.foldl_cons, List.foldl_cons, h]

theorem fieldClass_eq_iff (r1 r2 : List Str) :
    fieldClass r1 = fieldClass r2 ↔
      (r1.length < 2 ∧ r2.length < 2) ∨ (r1.length = 2 ∧ r2.length = 2) ∨
        (2 < r1.length ∧ 2 < r2.length) := by
  unfold fieldClass
  split_ifs <;> simp <;> omega

theorem stepPure_agree (tbl : Char → Char) (st : LoopState) (r1 r2 : List Str)
    (h : agreeOnThree r1 r2) : stepPure tbl st r1 = stepPure tbl st r2 := by
  obtain ⟨hc, hf⟩ := h
  rw [fieldClass_eq_iff] at hc
  match r1, r2, hc, hf with
  | [], [], _, _ => simp only [stepPure]
  | [], [_], _, _ => simp only [stepPure]
  | [_], [], _, _ => simp only [stepPure]
  | [_], [_], _, _ => simp only [stepPure]
  | [], _ :: _ :: _, hc, _ => simp only [List.length_cons, List.length_nil] at hc; omega
  | [_], _ :: _ :: _, hc, _ => simp only [List.length_cons, List.length_nil] at hc; omega
  | _ :: _ :: _, [], hc, _ => simp only [List.length_cons, List.length_nil] at hc; omega
  | _ :: _ :: _, [_], hc, _ => simp only [List.length_cons, List.length_nil] at hc; omega
  | [t, d], [t2, d2], _, hf =>
    have h0 := hf 0 (by omega) (by simp) (by simp)
    have h1 := hf 1 (by omega) (by simp) (by simp)
    simp only [List.getD_cons_zero, List.getD_cons_succ] at h0 h1
    rw [h0, h1]
  | [_, _], _ :: _ :: _ :: _, hc, _ =>
    simp only [List.length_cons, List.length_nil] at hc; omega
  | _ :: _ :: _ :: _, [_, _], hc, _ =>
    simp only [List.length_cons, List.length_nil] at hc; omega
  | t :: d :: g :: rest, t2 :: d2 :: g2 :: rest2, _, hf =>
    have h0 := hf 0 (by omega) (by simp) (by simp)
    have h1 := hf 1 (by omega) (by simp) (by simp)
    have h2 := hf 2 (by omega) (by simp) (by simp)
    simp only [List.getD_cons_zero, List.getD_cons_succ] at h0 h1 h2
    simp only [stepPure, tagOf, h0, h1, h2]

theorem foldl_stepPure_agree (tbl : Char → Char) (rows1 : List (List Str)) :
    ∀ (rows2 : List (List Str)) (st : LoopState), rows1.length = rows2.length →
      (∀ (i : Nat) (r1 r2 : List Str), rows1[i]? = some r1 → rows2[i]? = some r2 →
        agreeOnThree r1 r2) →
      rows1.foldl (stepPure tbl) st = rows2.foldl (stepPure tbl) st := by
  induction rows1 with
  | nil =>
    intro rows2 st hlen _
    cases rows2 with
    | nil => simp only [List.foldl_nil]
    | cons _ _ => simp at hlen
  | cons a as ih =>
    intro rows2 st hlen h
    cases rows2 with
    | nil => simp at hlen
    | cons b bs =>
      have hab : agreeOnThree a b := h 0 a b (by simp) (by simp)
      rw [List.foldl_cons, List.foldl_cons, stepPure_agree tbl st a b hab]
      refine ih bs _ (by simpa using hlen) ?_
      intro i r1 r2 h1 h2
      exact h (i + 1) r1 r2 (by simpa using h1) (by simpa using h2)

/-- Claim C12: fields after the third are ignored: two lists of rows of the same
length whose rows at each position have the same class (fewer than two fields,
exactly two, three or more) and the same first three fields give the same
entries. -/
theorem extra_fields_ignored (tbl : Char → Char) (rows1 rows2 : List (List Str))
    (hlen : rows1.length = rows2.length)
    (h : ∀ (i : Nat) (r1 r2 : List Str), rows1[i]? = some r1 → rows2[i]? = some r2 →
      fieldClass r1 = fieldClass r2 ∧
        ∀ j, j < 3 → j < r1.length → j < r2.length → r1.getD j [] = r2.getD j []) :
    buildEntries tbl rows1 = buildEntries tbl rows2 ∧
    ∃ es, buildEntries tbl rows1 = some es := by
  refine ⟨?_, _, buildEntries_eq tbl rows1⟩
  rw [buildEntries_eq, buildEntries_eq,
    foldl_stepPure_agree tbl rows1 rows2 LoopState.init hlen h]

/-- Claim C12, at two one-row lists that differ only from the fourth field on. -/
theorem extra_fields_ignored_witness :
    [["a".toList, "b".toList, "c".toList, "x".toList]].length
        = [["a".toList, "b".toList, "c".toList, "y".toList, "z".toList]].length ∧
    buildEntries asciiTable [["a".toList, "b".toList, "c".toList, "x".toList]]
      = buildEntries asciiTable [["a".toList, "b".toList, "c".toList, "y".toList, "z".toList]] :=
  ⟨rfl, (extra_fields_ignored asciiTable
    [["a".toList, "b".toList, "c".toList, "x".toList]]
    [["a".toList, "b".toList, "c".toList, "y".toList, "z".toList]] rfl (by
      intro i r1 r2 h1 h2
      cases i with
      | zero =>
        simp only [List.getElem?_cons_zero, Option.some.injEq] at h1 h2
        subst h1 h2
        refine ⟨by decide, ?_⟩
        intro j hj _ _
        interval_cases j <;> rfl
      | succ n => simp at h1)).1⟩

theorem trimSpace_pad (w1 s w2 : Str) (h1 : ∀ c ∈ w1, isSpace c = true)
    (h2 : ∀ c ∈ w2, isSpace c = true) : trimSpace (w1 ++ s ++ w2) = trimSpace s := by
  by_cases hs : ∀ c ∈ s, isSpace c = true
  · rw [(trimSpace_eq_nil_iff s).mpr hs, trimSpace_eq_nil_iff]
    intro c hc
    simp only [List.mem_append] at hc
    rcases hc with (hc | hc) | hc
    · exact h1 c hc
    · exact hs c hc
    · exact h2 c hc
  · have hne : (s.dropWhile isSpace).isEmpty = false := by
      cases hd : s.dropWhile isSpace with
      | nil => exact absurd (List.dropWhile_eq_nil_iff.mp hd) hs
      | cons _ _ => rfl
    have h2r : ∀ c ∈ w2.reverse, isSpace c = true := fun c hc => h2 c (List.mem_reverse.mp hc)
    unfold trimSpace
    rw [List.append_assoc, List.dropWhile_append_of_pos h1, List.dropWhile_append, hne]
    simp only [Bool.false_eq_true, if_false, List.reverse_append]
    rw [List.dropWhile_append_of_pos h2r]

/-- Claim C13: white space added around the term, the description or the tag of a
valid row changes nothing in the entries produced (fields are trimmed before
use), and a row with the two fields term, description gives the same entries as
the row term, description, empty tag. -/
theorem fields_are_trimmed (tbl : Char → Char) (pre post : List (List Str)) (t d : Str) :
    (∀ (g : Str) (extra : List Str) (a1 a2 b1 b2 c1 c2 : Str),
      (∀ c ∈ a1 ++ a2 ++ b1 ++ b2 ++ c1 ++ c2, isSpace c = true) →
      buildEntries tbl (pre ++ ((a1 ++ t ++ a2) :: (b1 ++ d ++ b2) :: (c1 ++ g ++ c2) :: extra)
          :: post)
        = buildEntries tbl (pre ++ (t :: d :: g :: extra) :: post)) ∧
    (∀ (a1 a2 b1 b2 : Str),
      (∀ c ∈ a1 ++ a2 ++ b1 ++ b2, isSpace c = true) →
      buildEntries tbl (pre ++ [a1 ++ t ++ a2, b1 ++ d ++ b2] :: post)
        = buildEntries tbl (pre ++ [t, d] :: post)) ∧
    buildEntries tbl (pre ++ [t, d] :: post) = buildEntries tbl (pre ++ [t, d, []] :: post) ∧
    ∃ es e, buildEntries tbl (pre ++ [t, d] :: post) = some es ∧
      es[(validRows pre).length]? = some e ∧
      e = entryOf tbl (occurrences tbl (sanitizeID tbl (trimSpace t)) pre)
        (trimSpace t) (trimSpace d) [] := by
  refine ⟨?_, ?_, ?_, ?_⟩
  · intro g extra a1 a2 b1 b2 c1 c2 hw
    apply buildEntries_congr_row
    intro st
    simp only [List.mem_append] at hw
    simp only [stepPure, tagOf]
    rw [trimSpace_pad a1 t a2 (fun c hc => hw c (by tauto)) (fun c hc => hw c (by tauto)),
      trimSpace_pad b1 d b2 (fun c hc => hw c (by tauto)) (fun c hc => hw c (by tauto)),
      trimSpace_pad c1 g c2 (fun c hc => hw c (by tauto)) (fun c hc => hw c (by tauto))]
  · intro a1 a2 b1 b2 hw
    apply buildEntries_congr_row
    intro st
    simp only [List.mem_append] at hw
    simp only [stepPure, tagOf]
    rw [trimSpace_pad a1 t a2 (fun c hc => hw c (by tauto)) (fun c hc => hw c (by tauto)),
      trimSpace_pad b1 d b2 (fun c hc => hw c (by tauto)) (fun c hc => hw c (by tauto))]
  · apply buildEntries_congr_row
    intro st
    have h0 : trimSpace [] = [] := (trimSpace_eq_nil_iff []).mpr (by simp)
    simp only [stepPure, tagOf, h0]
  · obtain ⟨es, hes, h1⟩ := buildEntries_at tbl pre post t d []
    exact ⟨es, _, hes, h1, rfl⟩

/-- Claim C13, at the row ` Go `, `<TAB>a language`, `x<NEWLINE>`. -/
theorem fields_are_trimmed_witness :
    (∀ c ∈ " ".toList ++ " ".toList ++ "\t".toList ++ [] ++ [] ++ "\n".toList,
      isSpace c = true) ∧
    buildEntries asciiTable ([] ++ ((" ".toList ++ "Go".toList ++ " ".toList)
        :: ("\t".toList ++ "a language".toList ++ []) :: ([] ++ "x".toList ++ "\n".toList)
        :: []) :: [])
      = buildEntries asciiTable ([] ++ ("Go".toList :: "a language".toList :: "x".toList :: [])
        :: []) :=
  ⟨by decide!, (fields_are_trimmed asciiTable [] [] "Go".toList "a language".toList).1
    "x".toList [] " ".toList " ".toList "\t".toList [] [] "\n".toList (by decide!)⟩

/-! ## The sanitizer, character by character -/

theorem sanitizeID_eq_flatMap (tbl : Char → Char) (s : Str) :
    sanitizeID tbl s = s.flatMap (fun c => sanitizeID tbl [c]) := by
  induction s with
  | nil => simp [sanitizeID_nil]
  | cons c cs ih =>
    have h : c :: cs = [c] ++ cs := rfl
    rw [h, sanitizeID_append, ih]
    simp

theorem applyReplacements_singleton (tab : List (Char × Str)) (x : Char)
    (h : ∀ p ∈ tab, x ≠ p.1) : applyReplacements tab [x] = [x] := by
  induction tab with
  | nil => rfl
  | cons p ps ih =>
    have hstep : applyReplacements (p :: ps) [x]
        = applyReplacements ps (replaceAll [x] p.1 p.2) := rfl
    have hx : replaceAll [x] p.1 p.2 = [x] := by
      simp [replaceAll, h p (List.mem_cons_self _ _)]
    rw [hstep, hx]
    exact ih (fun q hq => h q (List.mem_cons_of_mem _ hq))

theorem lookup_eq_none_of_not_key (tab : List (Char × Str)) (x : Char)
    (h : ∀ p ∈ tab, x ≠ p.1) : tab.lookup x = none := by
  induction tab with
  | nil => rfl
  | cons p ps ih =>
    obtain ⟨k, v⟩ := p
    have hk : x ≠ k := h (k, v) (List.mem_cons_self _ _)
    have hb : (x == k) = false := by simpa using hk
    rw [List.lookup_cons, hb]
    exact ih (fun q hq => h q (List.mem_cons_of_mem _ hq))

theorem escapeRune_of_not_ascii (c : Char) (h : ¬ c.toNat < 128) : escapeRune c = [c] := by
  have hne : ∀ x : Char, x.toNat < 128 → c ≠ x := by
    intro x hx hcx
    rw [hcx] at h
    exact h hx
  simp [escapeRune, hne '&' (by decide), hne (Char.ofNat 39) (by decide),
    hne '<' (by decide), hne '>' (by decide), hne (Char.ofNat 34) (by decide)]

set_option maxRecDepth 100000 in
theorem sanitize_ascii_runes :
    ∀ n, n < 128 → sanitizeID asciiTable [Char.ofNat n] = sanitizeRune asciiTable (Char.ofNat n) := by
  decide!

theorem sanitizeTable_keys_ascii : ∀ p ∈ sanitizeTable, p.1.toNat < 128 := by
  decide!

theorem sanitizeRune_ascii (tbl tbl2 : Char → Char) (c : Char) (h : c.toNat < 128) :
    sanitizeRune tbl c = sanitizeRune tbl2 c := by
  unfold sanitizeRune
  rw [toLowerRune_ascii tbl tbl2 c h]

theorem sanitizeID_singleton (tbl : Char → Char)
    (htbl : ∀ c, 128 ≤ c.toNat → ∀ p ∈ replacements, tbl c ≠ p.1) (c : Char) :
    sanitizeID tbl [c] = sanitizeRune tbl c := by
  by_cases h : c.toNat < 128
  · rw [sanitizeID_ascii tbl asciiTable [c] (by simpa using h),
      sanitizeRune_ascii tbl asciiTable c h]
    have := sanitize_ascii_runes c.toNat h
    rwa [Char.ofNat_toNat] at this
  · have hlook : sanitizeTable.lookup c = none := by
      apply lookup_eq_none_of_not_key
      intro p hp hcp
      have := sanitizeTable_keys_ascii p hp
      rw [← hcp] at this
      exact h this
    have hlow : toLowerRune tbl c = tbl c := by simp [toLowerRune, h]
    have hesc : escapeString [c] = [c] := by
      simp [escapeString, escapeRune_of_not_ascii c h]
    simp only [sanitizeRune, hlook, hlow]
    simp only [sanitizeID, hesc, toLower, List.map_cons, List.map_nil, hlow]
    exact applyReplacements_singleton replacements (tbl c) (htbl c (by omega))

theorem replacements_keys_ascii : ∀ p ∈ replacements, p.1.toNat < 128 := by
  decide!

theorem asciiTable_avoids_keys :
    ∀ c, 128 ≤ c.toNat → ∀ p ∈ replacements, asciiTable c ≠ p.1 := by
  intro c hc p hp h
  have := replacements_keys_ascii p hp
  rw [← h] at this
  simp only [asciiTable, id] at this
  omega

/-- Claim C16 as stated fails at the double quote and at the apostrophe: their
images are `_and__hash_34_semicolon_` and `_and__hash_39_semicolon_`, with two
underscores between `and` and `hash`, whatever the case table, and not the
tokens `_and_hash_34_semicolon_` and `_and_hash_39_semicolon_` of the claim. -/
theorem sanitizeID_quote_tokens :
    sanitizeID asciiTable [Char.ofNat 34] = "_and__hash_34_semicolon_".toList ∧
    sanitizeID asciiTable [Char.ofNat 34] ≠ "_and_hash_34_semicolon_".toList ∧
    sanitizeID asciiTable [Char.ofNat 39] = "_and__hash_39_semicolon_".toList ∧
    sanitizeID asciiTable [Char.ofNat 39] ≠ "_and_hash_39_semicolon_".toList ∧
    ∀ tbl : Char → Char,
      sanitizeID tbl [Char.ofNat 34] = sanitizeID asciiTable [Char.ofNat 34] ∧
      sanitizeID tbl [Char.ofNat 39] = sanitizeID asciiTable [Char.ofNat 39] :=
  ⟨by decide!, by decide!, by decide!, by decide!,
    fun tbl => ⟨sanitizeID_ascii tbl asciiTable _ (by decide!),
      sanitizeID_ascii tbl asciiTable _ (by decide!)⟩⟩

/-- Claim C16, amended: `sanitizeID` rewrites its input character by character with
one fixed table: the space gives `_`, `&` `<` `>` give `_and_amp_semicolon_`,
`_and_lt_semicolon_`, `_and_gt_semicolon_`, the double quote and the apostrophe
give `_and__hash_34_semicolon_` and `_and__hash_39_semicolon_`, each of the other
23 reserved punctuation characters gives its own token, and every other
character gives its lowercase; the empty string gives the empty string and a
concatenation is rewritten piece by piece. The case table is assumed to send no
rune outside ASCII to a replaced character, as the Unicode table does. -/
theorem sanitizeID_is_rune_rewriting (tbl : Char → Char)
    (htbl : ∀ c, 128 ≤ c.toNat → ∀ p ∈ replacements, tbl c ≠ p.1) :
    (∀ s : Str, sanitizeID tbl s = s.flatMap (sanitizeRune tbl)) ∧
    (∀ c : Char, (∀ p ∈ sanitizeTable, p.1 ≠ c) → sanitizeRune tbl c = [toLowerRune tbl c]) ∧
    (∀ p ∈ sanitizeTable, sanitizeRune tbl p.1 = p.2) ∧
    (sanitizeTable.map Prod.fst).Nodup ∧
    (∀ c, c ∈ sanitizeTable.map Prod.fst ↔ c = ' ' ∨ c ∈ reservedPunctuation) ∧
    (∀ p ∈ sanitizeTable, p.1 ∉ [' ', '&', '<', '>', Char.ofNat 34, Char.ofNat 39] →
      p ∈ replacements) ∧
    sanitizeID tbl [] = [] ∧
    (∀ s t : Str, sanitizeID tbl (s ++ t) = sanitizeID tbl s ++ sanitizeID tbl t) := by
  refine ⟨?_, ?_, ?_, by decide!, ?_, by decide!, sanitizeID_nil tbl,
    sanitizeID_append tbl⟩
  · intro s
    rw [sanitizeID_eq_flatMap]
    exact congrArg (fun f => List.flatMap s f) (funext (sanitizeID_singleton tbl htbl))
  · intro c hc
    have hlook : sanitizeTable.lookup c = none :=
      lookup_eq_none_of_not_key sanitizeTable c (fun p hp h => hc p hp h.symm)
    simp only [sanitizeRune, hlook]
  · intro p hp
    have hascii := sanitizeTable_keys_ascii p hp
    rw [sanitizeRune_ascii tbl asciiTable p.1 hascii]
    revert p
    decide!
  · intro c
    have h1 : sanitizeTable.map Prod.fst ⊆ ' ' :: reservedPunctuation := by decide!
    have h2 : ' ' :: reservedPunctuation ⊆ sanitizeTable.map Prod.fst := by decide!
    constructor
    · intro hc
      simpa using h1 hc
    · intro hc
      exact h2 (by simpa using hc)

/-- Claim C16, amended, at the term `a"b` with the case table that fixes every
rune outside ASCII. -/
theorem sanitizeID_is_rune_rewriting_witness :
    (∀ c, 128 ≤ c.toNat → ∀ p ∈ replacements, asciiTable c ≠ p.1) ∧
    sanitizeID asciiTable "a\"b".toList = "a\"b".toList.flatMap (sanitizeRune asciiTable) ∧
    sanitizeID asciiTable "a\"b".toList = "a_and__hash_34_semicolon_b".toList :=
  ⟨asciiTable_avoids_keys,
    (sanitizeID_is_rune_rewriting asciiTable asciiTable_avoids_keys).1 "a\"b".toList,
    by decide!⟩

/-! ## Replacements that never fire -/

theorem replaceAll_of_not_mem (s : Str) (old : Char) (new : Str) (h : old ∉ s) :
    replaceAll s old new = s := by
  induction s with
  | nil => rfl
  | cons c cs ih =>
    have hc : c ≠ old := fun e => h (e ▸ List.mem_cons_self _ _)
    have hcs : old ∉ cs := fun e => h (List.mem_cons_of_mem _ e)
    have hstep : replaceAll (c :: cs) old new
        = (if c = old then new else [c]) ++ replaceAll cs old new := by
      simp [replaceAll]
    rw [hstep, if_neg hc, ih hcs]
    rfl

/-- Replacements whose character cannot occur may be removed from a sequence of
replacements. -/
theorem applyReplacements_drop_dead (D : List Char) (tab : List (Char × Str))
    (htok : ∀ p ∈ tab, ∀ c ∈ p.2, c ∉ D) (s : Str) (hs : ∀ c ∈ s, c ∉ D) :
    applyReplacements tab s
      = applyReplacements (tab.filter (fun p => decide (p.1 ∉ D))) s := by
  induction tab generalizing s with
  | nil => rfl
  | cons p ps ih =>
    have hstep : applyReplacements (p :: ps) s
        = applyReplacements ps (replaceAll s p.1 p.2) := rfl
    have htok2 : ∀ q ∈ ps, ∀ c ∈ q.2, c ∉ D := fun q hq => htok q (List.mem_cons_of_mem _ hq)
    by_cases hp : p.1 ∈ D
    · have hns : p.1 ∉ s := fun h => hs p.1 h hp
      rw [hstep, replaceAll_of_not_mem s p.1 p.2 hns, List.filter_cons_of_neg (by simpa using hp)]
      exact ih htok2 s hs
    · rw [hstep, List.filter_cons_of_pos (by simpa using hp)]
      have hstep2 : applyReplacements (p :: ps.filter (fun p => decide (p.1 ∉ D))) s
          = applyReplacements (ps.filter (fun p => decide (p.1 ∉ D)))
              (replaceAll s p.1 p.2) := rfl
      rw [hstep2]
      refine ih htok2 _ ?_
      intro c hc
      rcases (mem_replaceAll s p.1 p.2 c).mp hc with ⟨h, _⟩ | ⟨_, h⟩
      · exact hs c h
      · exact htok p (List.mem_cons_self _ _) c h

theorem replacements_tokens_no_markup : ∀ p ∈ replacements, ∀ c ∈ p.2, c ∉ markupChars := by
  decide!

set_option maxRecDepth 100000 in
theorem toLowerRune_ascii_no_markup :
    ∀ n, n < 128 → Char.ofNat n ∉ markupChars →
      toLowerRune asciiTable (Char.ofNat n) ∉ markupChars := by
  decide!

theorem lowered_escaped_no_markup (tbl : Char → Char)
    (htbl : ∀ c, 128 ≤ c.toNat → tbl c ∉ markupChars) (s : Str) :
    ∀ c ∈ toLower tbl (escapeString s), c ∉ markupChars := by
  intro c hc
  simp only [toLower, List.mem_map] at hc
  obtain ⟨a, ha, rfl⟩ := hc
  have ham := escapeString_no_markup s a ha
  by_cases h : a.toNat < 128
  · rw [toLowerRune_ascii tbl asciiTable a h]
    have := toLowerRune_ascii_no_markup a.toNat h
    rw [Char.ofNat_toNat] at this
    exact this ham
  · have hlow : toLowerRune tbl a = tbl a := by simp [toLowerRune, h]
    rw [hlow]
    exact htbl a (by omega)

/-- Claim C17: the replacements of `<`, `>`, the apostrophe and the double quote
(by `_lt_`, `_gt_`, `_apos_`, `_quote_`) never fire: `sanitizeID` gives the same
result as the function without these four replacements, because HTML escaping
removes the four characters and neither lowercasing nor an earlier replacement
brings them back. The case table is assumed to send no rune outside ASCII to one
of the four characters, as the Unicode table does. -/
theorem markup_replacements_are_dead (tbl : Char → Char)
    (htbl : ∀ c, 128 ≤ c.toNat → tbl c ∉ markupChars) (s : Str) :
    sanitizeID tbl s = sanitizeIDWithoutDead tbl s ∧
    replacements.filter (fun p => decide (p.1 ∈ markupChars))
      = [('<', "_lt_".toList), ('>', "_gt_".toList), (Char.ofNat 39, "_apos_".toList),
          (Char.ofNat 34, "_quote_".toList)] ∧
    liveReplacements.length = 25 ∧
    liveReplacements.Sublist replacements := by
  refine ⟨?_, by decide!, by decide!, List.filter_sublist _⟩
  unfold sanitizeID sanitizeIDWithoutDead liveReplacements
  exact applyReplacements_drop_dead markupChars replacements replacements_tokens_no_markup _
    (lowered_escaped_no_markup tbl htbl s)

theorem asciiTable_avoids_markup : ∀ c, 128 ≤ c.toNat → asciiTable c ∉ markupChars := by
  intro c hc h
  have hm : ∀ x ∈ markupChars, x.toNat < 128 := by decide!
  have h2 := hm (asciiTable c) h
  simp only [asciiTable, id] at h2
  omega

/-- Claim C17, at the term `<a href="x">` with the case table that fixes every
rune outside ASCII. -/
theorem markup_replacements_are_dead_witness :
    (∀ c, 128 ≤ c.toNat → asciiTable c ∉ markupChars) ∧
    sanitizeID asciiTable "<a href=\"x\">".toList
      = sanitizeIDWithoutDead asciiTable "<a href=\"x\">".toList :=
  ⟨asciiTable_avoids_markup,
    (markup_replacements_are_dead asciiTable asciiTable_avoids_markup
      "<a href=\"x\">".toList).1⟩

/-! ## Uniqueness of identifiers under the side condition -/

theorem toDigitsCore_chars (f n : Nat) (ds : List Char) :
    ∀ c ∈ Nat.toDigitsCore 10 f n ds, c ∈ ds ∨ ∃ k, k < 10 ∧ c = Nat.digitChar k := by
  induction f generalizing n ds with
  | zero => intro c hc; exact Or.inl (by simpa [Nat.toDigitsCore] using hc)
  | succ f ih =>
    intro c hc
    simp only [Nat.toDigitsCore] at hc
    split at hc
    · rcases List.mem_cons.mp hc with h | h
      · exact Or.inr ⟨n % 10, Nat.mod_lt _ (by decide), h⟩
      · exact Or.inl h
    · rcases ih (n / 10) _ c hc with h | h
      · rcases List.mem_cons.mp h with h | h
        · exact Or.inr ⟨n % 10, Nat.mod_lt _ (by decide), h⟩
        · exact Or.inl h
      · exact Or.inr h

theorem underscore_not_mem_toDigits (k : Nat) : '_' ∉ Nat.toDigits 10 k := by
  intro h
  rcases toDigitsCore_chars (k + 1) k [] '_' h with h | ⟨d, hd, he⟩
  · simp at h
  · revert he
    interval_cases d <;> decide

/-- The text after the last underscore: two renderings `base_digits` that are
equal have the same base. -/
theorem append_underscore_cancel (x y d1 d2 : Str) (h1 : '_' ∉ d1) (h2 : '_' ∉ d2)
    (h : x ++ '_' :: d1 = y ++ '_' :: d2) : x = y := by
  rcases List.append_eq_append_iff.mp h with ⟨w, hy, hd⟩ | ⟨w, hx, hd⟩
  · cases w with
    | nil => simpa using hy.symm
    | cons a w =>
      simp only [List.cons_append, List.cons.injEq] at hd
      exact absurd (hd.2 ▸ (by simp : '_' ∈ w ++ '_' :: d2)) h1
  · cases w with
    | nil => simpa using hx
    | cons a w =>
      simp only [List.cons_append, List.cons.injEq] at hd
      exact absurd (hd.2 ▸ (by simp : '_' ∈ w ++ '_' :: d1)) h2

theorem sprintfID_base_injective (b1 b2 : Str) (k1 k2 : Nat)
    (h : sprintfID b1 k1 = sprintfID b2 k2) : b1 = b2 :=
  append_underscore_cancel b1 b2 _ _ (underscore_not_mem_toDigits k1)
    (underscore_not_mem_toDigits k2) h

/-- Identifiers of two different bases differ, when no base is another base
followed by `_` and a positive number. -/
theorem idOf_ne_of_base_ne (b1 b2 : Str) (k1 k2 : Nat) (hb : b1 ≠ b2)
    (h12 : ∀ k, 0 < k → b1 ≠ sprintfID b2 k) (h21 : ∀ k, 0 < k → b2 ≠ sprintfID b1 k) :
    (if k1 > 0 then sprintfID b1 k1 else b1) ≠ (if k2 > 0 then sprintfID b2 k2 else b2) := by
  by_cases hk1 : k1 > 0 <;> by_cases hk2 : k2 > 0
  · rw [if_pos hk1, if_pos hk2]
    exact fun e => hb (sprintfID_base_injective b1 b2 k1 k2 e)
  · rw [if_pos hk1, if_neg hk2]
    exact fun e => h21 k1 hk1 e.symm
  · rw [if_neg hk1, if_pos hk2]
    exact h12 k2 hk2
  · rw [if_neg hk1, if_neg hk2]
    exact hb

/-- The loop keeps the identifiers pairwise distinct, under the side condition on
the set `B` of the base identifiers in play. -/
theorem foldl_ids_nodup (tbl : Char → Char) (B : Str → Prop)
    (hB : ∀ b1 b2, B b1 → B b2 → ∀ k, 0 < k → b1 ≠ sprintfID b2 k)
    (rows : List (List Str)) :
    ∀ st : LoopState,
      (∀ r ∈ validRows rows, B (baseOf tbl r)) →
      (st.entries.map DictionaryEntry.ID).Nodup →
      (∀ e ∈ st.entries, ∃ b, B b ∧ ∃ k, k < st.usedIDs b ∧
        e.ID = if k > 0 then sprintfID b k else b) →
      ((rows.foldl (stepPure tbl) st).entries.map DictionaryEntry.ID).Nodup := by
  induction rows with
  | nil => intro st _ hnd _; simpa using hnd
  | cons r rs ih =>
    intro st hrows hnd hinv
    rcases stepPure_cases tbl st r with ⟨hlen, h⟩ | ⟨t, d, rest, rfl⟩
    · have hv : validRows (r :: rs) = validRows rs := by
        simp [validRows, List.filter_cons, Nat.not_le.mpr hlen]
      rw [List.foldl_cons, h]
      exact ih st (by rw [← hv]; exact hrows) hnd hinv
    · have hv : validRows ((t :: d :: rest) :: rs) = (t :: d :: rest) :: validRows rs := by
        simp [validRows, List.filter_cons]
      have hb : B (sanitizeID tbl (trimSpace t)) := by
        have := hrows (t :: d :: rest) (by rw [hv]; exact List.mem_cons_self _ _)
        simpa [baseOf] using this
      rw [List.foldl_cons, stepPure_valid]
      have hID := entryOf_ID tbl (st.usedIDs (sanitizeID tbl (trimSpace t))) (trimSpace t)
        (trimSpace d) (tagOf rest)
      generalize entryOf tbl (st.usedIDs (sanitizeID tbl (trimSpace t))) (trimSpace t)
        (trimSpace d) (tagOf rest) = e0 at hID ⊢
      generalize sanitizeID tbl (trimSpace t) = b0 at hb hID ⊢
      refine ih _ (fun r hr => hrows r (by rw [hv]; exact List.mem_cons_of_mem _ hr)) ?_ ?_
      · simp only [List.map_append, List.map_cons, List.map_nil]
        refine List.Nodup.append hnd (List.nodup_singleton _) ?_
        intro x hx hx2
        rw [List.mem_singleton] at hx2
        obtain ⟨e, he, hex⟩ := List.mem_map.mp hx
        obtain ⟨b, hbB, k, hk, hid⟩ := hinv e he
        rw [← hex, hid, hID] at hx2
        by_cases hbb : b = b0
        · rw [hbb] at hx2 hk
          exact idOf_ne b0 k (st.usedIDs b0) (by omega) hx2
        · exact idOf_ne_of_base_ne b b0 k (st.usedIDs b0) hbb (hB b b0 hbB hb)
            (hB b0 b hb hbB) hx2
      · intro e he
        simp only [List.mem_append, List.mem_singleton] at he
        rcases he with he | he
        · obtain ⟨b, hbB, k, hk, hid⟩ := hinv e he
          refine ⟨b, hbB, k, ?_, hid⟩
          simp only [incr]
          split <;> omega
        · refine ⟨b0, hb, st.usedIDs b0, ?_, ?_⟩
          · simp [incr]
          · rw [he]; exact hID

/-- Claim C18: when no valid row's base identifier is another valid row's base
identifier followed by `_` and the decimal rendering of a positive integer, the
ids of the entries are pairwise distinct. -/
theorem ids_distinct_without_suffix_clash (tbl : Char → Char) (rows : List (List Str))
    (h : ∀ r1 ∈ validRows rows, ∀ r2 ∈ validRows rows, ∀ k, 0 < k →
      baseOf tbl r1 ≠ baseOf tbl r2 ++ "_".toList ++ Nat.toDigits 10 k) :
    ∃ es, buildEntries tbl rows = some es ∧ (es.map DictionaryEntry.ID).Nodup := by
  refine ⟨_, buildEntries_eq tbl rows, ?_⟩
  refine foldl_ids_nodup tbl (fun b => ∃ r ∈ validRows rows, baseOf tbl r = b) ?_ rows
    LoopState.init (fun r hr => ⟨r, hr, rfl⟩) (by simp [LoopState.init])
    (by simp [LoopState.init])
  rintro b1 b2 ⟨r1, hr1, rfl⟩ ⟨r2, hr2, rfl⟩ k hk
  have := h r1 hr1 r2 hr2 k hk
  simpa [sprintfID] using this

/-- Claim C18, at the rows with terms `Go`, `Go`, `Rust`, whose bases `go` and
`rust` contain no underscore. -/
theorem ids_distinct_without_suffix_clash_witness :
    (∀ r1 ∈ validRows [["Go".toList, "x".toList], ["Go".toList, "y".toList],
        ["Rust".toList, "z".toList]],
      ∀ r2 ∈ validRows [["Go".toList, "x".toList], ["Go".toList, "y".toList],
        ["Rust".toList, "z".toList]], ∀ k, 0 < k →
      baseOf asciiTable r1 ≠ baseOf asciiTable r2 ++ "_".toList ++ Nat.toDigits 10 k) ∧
    ∃ es, buildEntries asciiTable [["Go".toList, "x".toList], ["Go".toList, "y".toList],
        ["Rust".toList, "z".toList]] = some es ∧ (es.map DictionaryEntry.ID).Nodup :=
  have hyp : ∀ r1 ∈ validRows [["Go".toList, "x".toList], ["Go".toList, "y".toList],
        ["Rust".toList, "z".toList]],
      ∀ r2 ∈ validRows [["Go".toList, "x".toList], ["Go".toList, "y".toList],
        ["Rust".toList, "z".toList]], ∀ k, 0 < k →
      baseOf asciiTable r1 ≠ baseOf asciiTable r2 ++ "_".toList ++ Nat.toDigits 10 k := by
    intro r1 h1 r2 _ k _ heq
    have hno : ∀ r ∈ validRows [["Go".toList, "x".toList], ["Go".toList, "y".toList],
        ["Rust".toList, "z".toList]], '_' ∉ baseOf asciiTable r := by decide!
    apply hno r1 h1
    rw [heq]
    simp
  ⟨hyp, ids_distinct_without_suffix_clash asciiTable _ hyp⟩

/-! ## Uppercase letters without a lowercase form -/

/-- A rune outside ASCII that the case table fixes is kept by `sanitizeID`. -/
theorem sanitizeID_fixed_rune (tbl : Char → Char) (c : Char) (h : ¬ c.toNat < 128)
    (hfix : tbl c = c) : sanitizeID tbl [c] = [c] := by
  have hlow : toLowerRune tbl c = c := by simp [toLowerRune, h, hfix]
  have hesc : escapeString [c] = [c] := by
    simp [escapeString, escapeRune_of_not_ascii c h]
  simp only [sanitizeID, hesc, toLower, List.map_cons, List.map_nil, hlow]
  apply applyReplacements_singleton
  intro p hp hcp
  have hp128 := replacements_keys_ascii p hp
  rw [← hcp] at hp128
  exact h hp128

/-- Claim C4 as stated fails: an uppercase letter without lowercase form, such as
the Greek upsilon with hook symbol U+03D2, is returned unchanged by `sanitizeID`
under every case table that fixes it (as the Unicode table does), so the output
can contain an uppercase letter although lowercasing it again changes
nothing. -/
theorem sanitizeID_keeps_uppercase_rune :
    Char.ofNat 0x3D2 ∈ uppercaseWithoutLowercase ∧
    sanitizeID asciiTable [Char.ofNat 0x3D2] = [Char.ofNat 0x3D2] ∧
    (∀ c ∈ uppercaseWithoutLowercase, ∀ tbl : Char → Char, tbl c = c →
      sanitizeID tbl [c] = [c] ∧ c ∈ sanitizeID tbl [c] ∧
      toLower tbl (sanitizeID tbl [c]) = sanitizeID tbl [c]) := by
  have hna : ∀ c ∈ uppercaseWithoutLowercase, ¬ c.toNat < 128 := by decide!
  refine ⟨by decide!, sanitizeID_fixed_rune asciiTable _ (by decide!) rfl, ?_⟩
  intro c hc tbl hfix
  have h := sanitizeID_fixed_rune tbl c (hna c hc) hfix
  refine ⟨h, by rw [h]; exact List.mem_singleton.mpr rfl, ?_⟩
  rw [h]
  simp [toLower, toLowerRune, hna c hc, hfix]

end BuildDict
